import Mathlib

/-!
Verification of the per-group episode queue of graphiti-server
(graphiti_server/core/queue.py) and its registry.

The Python code runs under asyncio: all tasks share one thread and control
changes hands only at suspension points (await).  We embed the queue as an
executable transition system.  A state records the backlog (the contents of
the asyncio.Queue), every worker task ever spawned with its current phase,
the bookkeeping fields of EpisodeQueue (is_running, worker_task), the
asyncio.Future objects created by add_episode, and ghost histories (enqueue
order, dequeue order, completed executions) used only to state properties.
An action is one atomic segment of Python code between suspension points;
a schedule is a list of actions, and nondeterministic interleaving is
quantification over schedules.
-/

namespace GraphitiQueue

/-- Outcome of running a work item's deferred operation: the value returned
by episode_fn, or the exception it raises (exceptions are coded as Nat). -/
inductive Outcome where
  | ok (v : Nat)
  | err (e : Nat)
deriving DecidableEq, Repr

/-- Semantics of one deferred work item (the process_episode closure):
susp is the number of suspension points its execution passes through
before it finishes (awaits that actually yield to the event loop), and
outcome is what it finally returns or raises. -/
structure ItemFn where
  susp : Nat
  outcome : Outcome
deriving DecidableEq, Repr

/-- An element of the asyncio.Queue: add_episode puts either the bare
process_episode closure (fire-and-forget) or the tuple
(process_episode, future) (wait_for_result).  The worker distinguishes the
two with isinstance(item, tuple). -/
inductive QItem where
  | bare (fn : ItemFn)
  | withFut (fn : ItemFn) (fid : Nat)
deriving DecidableEq, Repr

/-- The work item carried by a queue element. -/
def QItem.fn : QItem → ItemFn
  | .bare f => f
  | .withFut f _ => f

/-- The future attached to a queue element, if any. -/
def QItem.fut : QItem → Option Nat
  | .bare _ => none
  | .withFut _ i => some i

/-- Resolution of an asyncio.Future: future.set_result(result) where result
may be None (the worker's finally block runs set_result(None) when
cancellation interrupts episode_fn before it produced a result), or
future.set_exception(error). -/
inductive FutVal where
  | res (v : Option Nat)
  | exc (e : Nat)
deriving DecidableEq, Repr

/-- The item a worker is currently executing: its closure, its optional
future, and how many of its suspension points are still ahead. -/
structure CurItem where
  fn : ItemFn
  fut : Option Nat
  remaining : Nat
deriving DecidableEq, Repr

/-- Phase of one worker task: suspended in await queue.get(), inside
await episode_fn(), or finished (its coroutine returned, after the outer
except/finally ran). -/
inductive WPhase where
  | waitingGet
  | running (cur : CurItem)
  | stopped
deriving DecidableEq, Repr

/-- One worker task created by start_worker.  process_fn is the argument
the task was created with; the body of _worker never reads it.  cancelled
records that Task.cancel() was called but the CancelledError has not yet
been thrown into the coroutine (asyncio delivers it at a suspension
point). -/
structure Worker where
  process_fn : Nat
  phase : WPhase
  cancelled : Bool
deriving DecidableEq, Repr

/-- Full state of one EpisodeQueue plus ghost history.  workers lists every
task ever created for this queue, in creation order; worker_task is the
index currently stored in self.worker_task.  stopWaiting = some i while a
stop() call is suspended in await self.worker_task (awaiting task i).
stopReturned is ghost: set when a stop() call returns, cleared by
start_worker.  futures maps future ids to none (pending) or some
resolution.  lastReturn is ghost: the value returned by the most recent
fire-and-forget add_episode.  enqueued, started, executed, processed are
ghost histories: items enqueued, items dequeued by a worker (in dequeue
order), items whose execution ran to completion, and items whose handling
ended (completed or interrupted by cancellation). -/
structure QState where
  backlog : List QItem
  workers : List Worker
  worker_task : Option Nat
  is_running : Bool
  stopWaiting : Option Nat
  stopReturned : Bool
  futures : List (Nat × Option FutVal)
  nextFid : Nat
  lastReturn : Option Nat
  enqueued : List ItemFn
  started : List ItemFn
  executed : List ItemFn
  processed : List ItemFn
deriving DecidableEq, Repr

/-- State built by EpisodeQueue.__init__: empty asyncio.Queue,
worker_task = None, is_running = False. -/
def qInit : QState :=
  { backlog := []
    workers := []
    worker_task := none
    is_running := false
    stopWaiting := none
    stopReturned := false
    futures := []
    nextFid := 0
    lastReturn := none
    enqueued := []
    started := []
    executed := []
    processed := [] }

/-- Look up worker i. -/
def getW : List Worker → Nat → Option Worker
  | [], _ => none
  | w :: _, 0 => some w
  | _ :: ws, n + 1 => getW ws n

/-- Replace worker i by f applied to it. -/
def updW : List Worker → Nat → (Worker → Worker) → List Worker
  | [], _, _ => []
  | w :: ws, 0, f => f w :: ws
  | w :: ws, n + 1, f => w :: updW ws n f

/-- Resolve future i (futures are resolved at most once in any run the
worker produces, since each add_episode creates a fresh future). -/
def setFut (fs : List (Nat × Option FutVal)) (i : Nat) (v : FutVal) :
    List (Nat × Option FutVal) :=
  fs.map (fun p => if p.1 = i then (p.1, some v) else p)

/-- Read the state of future i. -/
def getFut : List (Nat × Option FutVal) → Nat → Option (Option FutVal)
  | [], _ => none
  | p :: ps, i => if p.1 = i then some p.2 else getFut ps i

/-- The item worker w is currently executing, as a zero- or one-element
list. -/
def wCur (w : Worker) : List ItemFn :=
  match w.phase with
  | .running c => [c.fn]
  | _ => []

/-- Items currently being executed, over a list of workers. -/
def curFnsL : List Worker → List ItemFn
  | [] => []
  | w :: ws => wCur w ++ curFnsL ws

/-- Items currently being executed by some worker of this queue (at most
one in any disciplined run). -/
def curFns (s : QState) : List ItemFn :=
  curFnsL s.workers

/-- Whether a worker task is still live (its coroutine has not finished). -/
def Worker.active (w : Worker) : Bool :=
  match w.phase with
  | .stopped => false
  | _ => true

/-- Number of live worker tasks of this queue. -/
def activeCount (s : QState) : Nat :=
  (s.workers.filter Worker.active).length

/-- The work items sitting in the backlog, in order. -/
def backlogFns (s : QState) : List ItemFn :=
  s.backlog.map QItem.fn

/-- One atomic step of some task of the system.  Each action is a segment
of Python code that runs without yielding to the event loop. -/
inductive Act where
  | startWorker (pf : Nat)
  | addFF (fn : ItemFn)
  | addWait (fn : ItemFn)
  | workerGet (i : Nat)
  | workerStep (i : Nat)
  | workerFinish (i : Nat)
  | stopBegin
  | deliverCancel (i : Nat)
  | stopEnd
  | workerFatal (i : Nat)
deriving DecidableEq, Repr

/-- start_worker(process_fn): if self.is_running: return; else
self.is_running = True; self.worker_task = create_task(_worker(process_fn)).
The new task starts suspended at its first await (queue.get()). -/
def doStart (s : QState) (pf : Nat) : QState :=
  if s.is_running then s
  else
    { s with
      is_running := true
      workers := s.workers ++ [{ process_fn := pf, phase := .waitingGet, cancelled := false }]
      worker_task := some s.workers.length
      stopReturned := false }

/-- add_episode with wait_for_result=False: await self.queue.put(fn) (the
queue is unbounded so put does not suspend) then return self.queue.qsize().
No other task runs between the put and the qsize read. -/
def doAddFF (s : QState) (fn : ItemFn) : QState :=
  { s with
    backlog := s.backlog ++ [.bare fn]
    enqueued := s.enqueued ++ [fn]
    lastReturn := some (s.backlog.length + 1) }

/-- add_episode with wait_for_result=True: future = asyncio.Future();
await self.queue.put((fn, future)).  The caller then suspends in
await future; its wakeup is reading the resolved entry of futures. -/
def doAddWait (s : QState) (fn : ItemFn) : QState :=
  { s with
    backlog := s.backlog ++ [.withFut fn s.nextFid]
    futures := s.futures ++ [(s.nextFid, none)]
    nextFid := s.nextFid + 1
    enqueued := s.enqueued ++ [fn] }

/-- Worker i resumes from item = await self.queue.get() with the head of a
nonempty backlog, unpacks the tuple or bare closure, and enters
await episode_fn(). -/
def doGet (s : QState) (i : Nat) : QState :=
  match getW s.workers i with
  | some w =>
    match w.phase with
    | .waitingGet =>
      match s.backlog with
      | [] => s
      | x :: rest =>
        { s with
          backlog := rest
          workers := updW s.workers i fun w =>
            { w with phase := .running { fn := x.fn, fut := x.fut, remaining := x.fn.susp } }
          started := s.started ++ [x.fn] }
    | _ => s
  | none => s

/-- Execution of worker i's current item passes one of its suspension
points without a pending cancellation being delivered there. -/
def doStep (s : QState) (i : Nat) : QState :=
  match getW s.workers i with
  | some w =>
    match w.phase with
    | .running c =>
      match c.remaining with
      | 0 => s
      | k + 1 =>
        { s with
          workers := updW s.workers i fun w =>
            { w with phase := .running { c with remaining := k } } }
    | _ => s
  | none => s

/-- Worker i's current item finishes (all suspension points passed):
episode_fn returns result or raises error; except Exception catches the
error; the finally block runs set_exception(error) or set_result(result)
on the attached future if any, and task_done(); the loop then reenters
await self.queue.get(). -/
def doFinish (s : QState) (i : Nat) : QState :=
  match getW s.workers i with
  | some w =>
    match w.phase with
    | .running c =>
      match c.remaining with
      | 0 =>
        { s with
          workers := updW s.workers i fun w => { w with phase := .waitingGet }
          futures :=
            match c.fut with
            | some fid =>
              match c.fn.outcome with
              | .ok v => setFut s.futures fid (.res (some v))
              | .err e => setFut s.futures fid (.exc e)
            | none => s.futures
          executed := s.executed ++ [c.fn]
          processed := s.processed ++ [c.fn] }
      | _ + 1 => s
    | _ => s
  | none => s

/-- First half of stop(): if self.worker_task: self.worker_task.cancel()
and suspend in await self.worker_task.  Task.cancel() only requests
delivery of CancelledError at the task's next suspension point.  If
self.worker_task is None, stop() just sets self.is_running = False and
returns.  The model admits one stop() call in flight at a time. -/
def doStopBegin (s : QState) : QState :=
  match s.stopWaiting with
  | some _ => s
  | none =>
    match s.worker_task with
    | some k =>
      { s with
        workers := updW s.workers k fun w => { w with cancelled := true }
        stopWaiting := some k }
    | none => { s with is_running := false, stopReturned := true }

/-- The event loop throws CancelledError into worker i at its current
suspension point.  In await queue.get(): the error propagates to the outer
except CancelledError, then finally sets self.is_running = False and the
coroutine ends.  Inside await episode_fn() (only possible while a
suspension point is still ahead): except Exception does not catch
CancelledError, so the inner finally runs with error = None and result =
None, calling future.set_result(None) on an attached future, then the
error propagates to the outer handler as above.  A worker whose current
item has no suspension point left is not at a suspension point, so nothing
is delivered. -/
def doDeliverCancel (s : QState) (i : Nat) : QState :=
  match getW s.workers i with
  | some w =>
    match w.cancelled with
    | true =>
      match w.phase with
      | .waitingGet =>
        { s with
          workers := updW s.workers i fun w => { w with phase := .stopped }
          is_running := false }
      | .running c =>
        match c.remaining with
        | 0 => s
        | _ + 1 =>
          { s with
            workers := updW s.workers i fun w => { w with phase := .stopped }
            is_running := false
            futures :=
              match c.fut with
              | some fid => setFut s.futures fid (.res none)
              | none => s.futures
            processed := s.processed ++ [c.fn] }
      | .stopped => s
    | false => s
  | none => s

/-- Second half of stop(): the awaited worker task has finished, so
await self.worker_task resumes (raising CancelledError, swallowed by the
except CancelledError: pass), and stop() runs self.is_running = False and
returns. -/
def doStopEnd (s : QState) : QState :=
  match s.stopWaiting with
  | some k =>
    match getW s.workers k with
    | some w =>
      match w.phase with
      | .stopped =>
        { s with is_running := false, stopWaiting := none, stopReturned := true }
      | _ => s
    | none => s
  | none => s

/-- An unexpected internal fault of the worker loop itself (not raised by
a work item), hitting worker i while it idles in await queue.get(): the
outer except Exception logs it and the finally sets self.is_running =
False; the coroutine ends. -/
def doFatal (s : QState) (i : Nat) : QState :=
  match getW s.workers i with
  | some w =>
    match w.phase with
    | .waitingGet =>
      { s with
        workers := updW s.workers i fun w => { w with phase := .stopped }
        is_running := false }
    | _ => s
  | none => s

/-- One step of the whole system. -/
def step (s : QState) : Act → QState
  | .startWorker pf => doStart s pf
  | .addFF fn => doAddFF s fn
  | .addWait fn => doAddWait s fn
  | .workerGet i => doGet s i
  | .workerStep i => doStep s i
  | .workerFinish i => doFinish s i
  | .stopBegin => doStopBegin s
  | .deliverCancel i => doDeliverCancel s i
  | .stopEnd => doStopEnd s
  | .workerFatal i => doFatal s i

/-- Run a schedule. -/
def run (s : QState) : List Act → QState
  | [] => s
  | a :: acts => run (step s a) acts

/-- A schedule is disciplined when start_worker is never invoked while a
stop() call is suspended in await self.worker_task.  In the server this
holds whenever queue shutdown is sequenced after the last submission, as
the lifespan teardown does. -/
def disciplined (s : QState) : List Act → Bool
  | [] => true
  | a :: acts =>
    (match a with
     | .startWorker _ => s.stopWaiting = none
     | _ => true) &&
    disciplined (step s a) acts

/-!
Registry: the module-level dict _episode_queues and get_episode_queue.
A queue instance is identified by its creation index; queues stores, per
instance, the group_id passed to EpisodeQueue.__init__ and the state
__init__ built.  get_episode_queue contains no await, so under asyncio it
runs atomically even across interleaved callers.
-/

/-- State of the module-level registry _episode_queues. -/
structure RegState where
  entries : List (String × Nat)
  queues : List (String × QState)
deriving DecidableEq

/-- The registry at module load: an empty dict. -/
def regInit : RegState := { entries := [], queues := [] }

/-- Dict lookup group_id in _episode_queues. -/
def findQ : List (String × Nat) → String → Option Nat
  | [], _ => none
  | p :: ps, g => if p.1 = g then some p.2 else findQ ps g

/-- get_episode_queue(group_id): if group_id not in _episode_queues,
insert EpisodeQueue(group_id); return _episode_queues[group_id]. -/
def get_episode_queue (r : RegState) (g : String) : Nat × RegState :=
  match findQ r.entries g with
  | some i => (i, r)
  | none =>
    (r.queues.length,
     { entries := r.entries ++ [(g, r.queues.length)]
       queues := r.queues ++ [(g, qInit)] })

/-- Run a sequence of get_episode_queue calls. -/
def runReg (r : RegState) : List String → RegState
  | [] => r
  | g :: gs => runReg (get_episode_queue r g).2 gs

/-!
The process_episode closure of add_episode, modelled at the level of the
arguments it hands to client.add_episode.  The closure captures name,
episode_body, source, source_description, self.group_id, uuid and
use_custom_entities from the enclosing add_episode call; its body computes
reference_time = datetime.now(timezone.utc) and entity_types =
ENTITY_TYPES if use_custom_entities else {} when the worker runs it.
-/

/-- Arguments process_episode passes to client.add_episode.  Times are
clock readings coded as Nat; custom_entities is true when entity_types is
ENTITY_TYPES and false when it is the empty dict. -/
structure EpisodeArgs where
  name : String
  episode_body : String
  source : Nat
  source_description : String
  group_id : String
  uuid : Option String
  reference_time : Nat
  custom_entities : Bool
deriving DecidableEq, Repr

/-- Body of process_episode as a function of the clock reading execTime at
the moment the worker executes it: datetime.now(timezone.utc) is evaluated
inside the closure body, all other arguments are the captured ones. -/
def process_episode (group_id name episode_body : String) (source : Nat)
    (source_description : String) (uuid : Option String)
    (use_custom_entities : Bool) : Nat → EpisodeArgs :=
  fun execTime =>
    { name := name
      episode_body := episode_body
      source := source
      source_description := source_description
      group_id := group_id
      uuid := uuid
      reference_time := execTime
      custom_entities := use_custom_entities }

/-- The work item add_episode constructs.  ctorTime is the clock reading
at the moment add_episode defines the process_episode closure; the source
performs no clock read at construction, so the closure cannot depend on
it. -/
def add_episode_item (ctorTime : Nat) (group_id name episode_body : String)
    (source : Nat) (source_description : String) (uuid : Option String)
    (use_custom_entities : Bool) : Nat → EpisodeArgs :=
  process_episode group_id name episode_body source source_description uuid
    use_custom_entities

/-!
Machinery for the process_fn noninterference claim: relabelling the
process_fn argument of every start_worker call, and the observable part of
a state (everything except the stored process_fn values).
-/

/-- Replace the process_fn argument of start_worker actions. -/
def Act.relabelPf (f : Nat → Nat) : Act → Act
  | .startWorker pf => .startWorker (f pf)
  | a => a

/-- Apply f to every stored process_fn. -/
def mapPfState (f : Nat → Nat) (s : QState) : QState :=
  { s with workers := s.workers.map fun w => { w with process_fn := f w.process_fn } }

/-- Observable projection of a state: normalise every stored process_fn,
keeping the backlog, futures, flags, phases and ghost histories. -/
def obsState (s : QState) : QState := mapPfState (fun _ => 0) s

/-!
Basic lemmas about the worker-list accessors and about run.
-/

theorem run_append (s : QState) (l1 l2 : List Act) :
    run s (l1 ++ l2) = run (run s l1) l2 := by
  induction l1 generalizing s with
  | nil => rfl
  | cons a l ih => simp only [List.cons_append, run]; exact ih (step s a)

theorem disciplined_append (s : QState) (l1 l2 : List Act) :
    disciplined s (l1 ++ l2) = (disciplined s l1 && disciplined (run s l1) l2) := by
  induction l1 generalizing s with
  | nil => simp [disciplined, run]
  | cons a l ih =>
    simp only [List.cons_append, disciplined, run, List.append_eq]
    rw [ih (step s a), Bool.and_assoc]

theorem length_updW (ws : List Worker) (i : Nat) (f : Worker → Worker) :
    (updW ws i f).length = ws.length := by
  induction ws generalizing i with
  | nil => rfl
  | cons w ws ih => cases i <;> simp [updW, ih]

theorem getW_updW_self (ws : List Worker) (i : Nat) (f : Worker → Worker) :
    getW (updW ws i f) i = (getW ws i).map f := by
  induction ws generalizing i with
  | nil => rfl
  | cons w ws ih => cases i <;> simp [updW, getW, ih]

theorem getW_updW_ne (ws : List Worker) (i j : Nat) (f : Worker → Worker)
    (h : i ≠ j) : getW (updW ws i f) j = getW ws j := by
  induction ws generalizing i j with
  | nil => rfl
  | cons w ws ih =>
    cases i with
    | zero =>
      cases j with
      | zero => exact absurd rfl h
      | succ j => rfl
    | succ i =>
      cases j with
      | zero => rfl
      | succ j =>
        simp only [updW, getW]
        exact ih i j (fun hc => h (by rw [hc]))

theorem getW_lt_length (ws : List Worker) (i : Nat) (w : Worker)
    (h : getW ws i = some w) : i < ws.length := by
  induction ws generalizing i with
  | nil => simp [getW] at h
  | cons w0 ws ih =>
    cases i with
    | zero => simp [List.length]
    | succ i => exact Nat.succ_lt_succ (ih i h)

theorem getW_mem (ws : List Worker) (i : Nat) (w : Worker)
    (h : getW ws i = some w) : w ∈ ws := by
  induction ws generalizing i with
  | nil => simp [getW] at h
  | cons w0 ws ih =>
    cases i with
    | zero => simp only [getW, Option.some.injEq] at h; simp [h]
    | succ i => exact List.mem_cons_of_mem _ (ih i h)

theorem mem_getW (ws : List Worker) (w : Worker) (h : w ∈ ws) :
    ∃ i, getW ws i = some w := by
  induction ws with
  | nil => simp at h
  | cons w0 ws ih =>
    rcases List.mem_cons.mp h with h0 | h1
    · exact ⟨0, by simp [getW, h0]⟩
    · rcases ih h1 with ⟨i, hi⟩
      exact ⟨i + 1, hi⟩

theorem getW_ex_of_lt (ws : List Worker) (i : Nat) (h : i < ws.length) :
    ∃ w, getW ws i = some w := by
  induction ws generalizing i with
  | nil => simp at h
  | cons w0 ws ih =>
    cases i with
    | zero => exact ⟨w0, rfl⟩
    | succ i => exact ih i (Nat.lt_of_succ_lt_succ h)

theorem getW_append_lt (ws l : List Worker) (i : Nat) (h : i < ws.length) :
    getW (ws ++ l) i = getW ws i := by
  induction ws generalizing i with
  | nil => simp at h
  | cons w0 ws ih =>
    cases i with
    | zero => rfl
    | succ i => exact ih i (Nat.lt_of_succ_lt_succ h)

theorem getW_append_len (ws : List Worker) (w : Worker) :
    getW (ws ++ [w]) ws.length = some w := by
  induction ws with
  | nil => rfl
  | cons w0 ws ih => exact ih

theorem mem_updW (ws : List Worker) (i : Nat) (f : Worker → Worker)
    (w : Worker) (h : w ∈ updW ws i f) :
    w ∈ ws ∨ ∃ w0, getW ws i = some w0 ∧ w = f w0 := by
  induction ws generalizing i with
  | nil => simp [updW] at h
  | cons w0 ws ih =>
    cases i with
    | zero =>
      rcases List.mem_cons.mp h with h0 | h1
      · exact Or.inr ⟨w0, rfl, h0⟩
      · exact Or.inl (List.mem_cons_of_mem _ h1)
    | succ i =>
      rcases List.mem_cons.mp h with h0 | h1
      · exact Or.inl (by simp [h0])
      · rcases ih i h1 with h2 | ⟨wx, hx1, hx2⟩
        · exact Or.inl (List.mem_cons_of_mem _ h2)
        · exact Or.inr ⟨wx, hx1, hx2⟩

theorem updW_eq_self (ws : List Worker) (i : Nat) (f : Worker → Worker)
    (w : Worker) (h : getW ws i = some w) (hf : f w = w) :
    updW ws i f = ws := by
  induction ws generalizing i with
  | nil => rfl
  | cons w0 ws ih =>
    cases i with
    | zero =>
      simp only [getW, Option.some.injEq] at h
      simp [updW, h, hf]
    | succ i => simp [updW, ih i h]

theorem updW_updW (ws : List Worker) (i : Nat) (f g : Worker → Worker) :
    updW (updW ws i f) i g = updW ws i (fun w => g (f w)) := by
  induction ws generalizing i with
  | nil => rfl
  | cons w0 ws ih => cases i <;> simp [updW, ih]

theorem curFnsL_append (l1 l2 : List Worker) :
    curFnsL (l1 ++ l2) = curFnsL l1 ++ curFnsL l2 := by
  induction l1 with
  | nil => rfl
  | cons w l ih => simp [curFnsL, ih]

/-- All workers except possibly the most recently created one have
finished. -/
def stoppedBelowL (ws : List Worker) : Prop :=
  ∀ i w, getW ws i = some w → i + 1 < ws.length → w.phase = .stopped

theorem active_last (ws : List Worker) (i : Nat) (w : Worker)
    (hsb : stoppedBelowL ws) (hg : getW ws i = some w)
    (hact : w.phase ≠ .stopped) : i + 1 = ws.length := by
  have hlt := getW_lt_length ws i w hg
  rcases Nat.lt_or_ge (i + 1) ws.length with h | h
  · exact absurd (hsb i w hg h) hact
  · exact Nat.le_antisymm hlt h

theorem curFnsL_updW_congr (ws : List Worker) (i : Nat)
    (f : Worker → Worker) (w : Worker) (hg : getW ws i = some w)
    (hf : wCur (f w) = wCur w) : curFnsL (updW ws i f) = curFnsL ws := by
  induction ws generalizing i with
  | nil => rfl
  | cons w0 ws ih =>
    cases i with
    | zero =>
      simp only [getW, Option.some.injEq] at hg
      subst hg
      simp [updW, curFnsL, hf]
    | succ i => simp [updW, curFnsL, ih i hg]

theorem curFnsL_active (ws : List Worker) (i : Nat) (w : Worker)
    (hsb : stoppedBelowL ws) (hg : getW ws i = some w)
    (hact : w.phase ≠ .stopped) :
    curFnsL ws = wCur w ∧ ∀ f, curFnsL (updW ws i f) = wCur (f w) := by
  induction ws generalizing i with
  | nil => simp [getW] at hg
  | cons w0 ws ih =>
    cases i with
    | zero =>
      simp only [getW, Option.some.injEq] at hg
      cases hemp : ws with
      | nil => simp [curFnsL, updW, hg]
      | cons w1 ws1 =>
        have hstop : w0.phase = .stopped := by
          apply hsb 0 w0 rfl
          simp only [hemp, List.length_cons]
          omega
        rw [hg] at hstop
        exact absurd hstop hact
    | succ i =>
      have hsb1 : stoppedBelowL ws := by
        intro j wj hj hlen
        apply hsb (j + 1) wj hj
        simpa [List.length] using Nat.succ_lt_succ hlen
      have h0 : w0.phase = .stopped := by
        have hlt := getW_lt_length ws i w hg
        apply hsb 0 w0 rfl
        simp only [List.length_cons]
        omega
      have hcur0 : wCur w0 = [] := by simp [wCur, h0]
      rcases ih i hsb1 hg with ⟨h1, h2⟩
      constructor
      · simp [curFnsL, hcur0, h1]
      · intro f
        simp [updW, curFnsL, hcur0, h2 f]

theorem allStopped_of_last (ws : List Worker) (k : Nat) (w : Worker)
    (hsb : stoppedBelowL ws) (hg : getW ws k = some w)
    (hst : w.phase = .stopped) (hlast : k + 1 = ws.length) :
    ∀ w0 ∈ ws, w0.phase = .stopped := by
  intro w0 hmem
  rcases mem_getW ws w0 hmem with ⟨j, hj⟩
  have hjlt := getW_lt_length ws j w0 hj
  rcases Nat.lt_or_ge (j + 1) ws.length with h | h
  · exact hsb j w0 hj h
  · have : j = k := by omega
    subst this
    rw [hj] at hg
    cases hg
    exact hst

theorem allStopped_updW_stop (ws : List Worker) (i : Nat) (w : Worker)
    (f : Worker → Worker) (hsb : stoppedBelowL ws)
    (hg : getW ws i = some w) (hact : w.phase ≠ .stopped)
    (hf : (f w).phase = .stopped) :
    ∀ w0 ∈ updW ws i f, w0.phase = .stopped := by
  intro w0 hmem
  rcases mem_getW _ w0 hmem with ⟨j, hj⟩
  by_cases hji : j = i
  · subst hji
    rw [getW_updW_self, hg] at hj
    simp only [Option.map_some', Option.some.injEq] at hj
    rw [← hj]
    exact hf
  · rw [getW_updW_ne ws i j f (fun hc => hji hc.symm)] at hj
    have hjlt := getW_lt_length ws j w0 hj
    have hi1 := active_last ws i w hsb hg hact
    have : j + 1 < ws.length := by omega
    exact hsb j w0 hj this

/-!
Invariants of the queue transition system.
-/

/-- FIFO ghost invariant: the items dequeued so far, followed by the items
still in the backlog, are exactly the enqueue history in order. -/
def FifoInv (s : QState) : Prop :=
  s.started ++ backlogFns s = s.enqueued

/-- Every worker task of the queue has finished. -/
def allStopped (s : QState) : Prop :=
  ∀ w ∈ s.workers, w.phase = .stopped

/-- Invariant of disciplined runs: self.worker_task points at the most
recently created task; only the most recent task can still be live;
whenever the queue is not running and no stop() is pending, every task has
finished; a pending stop() awaits the most recent task; after stop()
returned (without a later start), the queue is not running and every task
has finished; and the dequeue history is the processed history plus the
items currently executing. -/
def DInv (s : QState) : Prop :=
  (s.worker_task =
    if s.workers.length = 0 then none else some (s.workers.length - 1)) ∧
  stoppedBelowL s.workers ∧
  (s.is_running = false → s.stopWaiting = none → allStopped s) ∧
  (∀ k, s.stopWaiting = some k → k + 1 = s.workers.length) ∧
  (s.stopReturned = true → s.is_running = false ∧ allStopped s) ∧
  s.processed ++ curFnsL s.workers = s.started

theorem fifo_step (s : QState) (a : Act) (h : FifoInv s) :
    FifoInv (step s a) := by
  cases a with
  | startWorker pf =>
    simp only [step, doStart]
    split <;> simpa [FifoInv, backlogFns] using h
  | addFF fn =>
    simp only [step, doAddFF, FifoInv, backlogFns] at h ⊢
    simp only [List.map_append, List.map_cons, List.map_nil, QItem.fn]
    rw [← List.append_assoc, h]
  | addWait fn =>
    simp only [step, doAddWait, FifoInv, backlogFns] at h ⊢
    simp only [List.map_append, List.map_cons, List.map_nil, QItem.fn]
    rw [← List.append_assoc, h]
  | workerGet i =>
    simp only [step, doGet]
    cases hw : getW s.workers i with
    | none => exact h
    | some w =>
      dsimp only
      cases hph : w.phase with
      | waitingGet =>
        dsimp only
        cases hb : s.backlog with
        | nil => exact h
        | cons x rest =>
          simp only [FifoInv, backlogFns] at h ⊢
          rw [hb, List.map_cons] at h
          rw [← h]
          simp [List.append_assoc]
      | running c => exact h
      | stopped => exact h
  | workerStep i =>
    simp only [step, doStep]
    cases hw : getW s.workers i with
    | none => exact h
    | some w =>
      dsimp only
      cases hph : w.phase with
      | waitingGet => exact h
      | stopped => exact h
      | running c =>
        dsimp only
        cases hr : c.remaining with
        | zero => exact h
        | succ k => simpa [FifoInv, backlogFns] using h
  | workerFinish i =>
    simp only [step, doFinish]
    cases hw : getW s.workers i with
    | none => exact h
    | some w =>
      dsimp only
      cases hph : w.phase with
      | waitingGet => exact h
      | stopped => exact h
      | running c =>
        dsimp only
        cases hr : c.remaining with
        | zero => simpa [FifoInv, backlogFns] using h
        | succ k => exact h
  | stopBegin =>
    simp only [step, doStopBegin]
    cases hsw : s.stopWaiting with
    | some k => exact h
    | none =>
      dsimp only
      cases hwt : s.worker_task with
      | some k => simpa [FifoInv, backlogFns] using h
      | none => simpa [FifoInv, backlogFns] using h
  | deliverCancel i =>
    simp only [step, doDeliverCancel]
    cases hw : getW s.workers i with
    | none => exact h
    | some w =>
      dsimp only
      cases hc : w.cancelled with
      | false => exact h
      | true =>
        dsimp only
        cases hph : w.phase with
        | waitingGet => simpa [FifoInv, backlogFns] using h
        | stopped => exact h
        | running c =>
          dsimp only
          cases hr : c.remaining with
          | zero => exact h
          | succ k => simpa [FifoInv, backlogFns] using h
  | stopEnd =>
    simp only [step, doStopEnd]
    cases hsw : s.stopWaiting with
    | none => exact h
    | some k =>
      dsimp only
      cases hw : getW s.workers k with
      | none => exact h
      | some w =>
        dsimp only
        cases hph : w.phase with
        | waitingGet => exact h
        | running c => exact h
        | stopped => simpa [FifoInv, backlogFns] using h
  | workerFatal i =>
    simp only [step, doFatal]
    cases hw : getW s.workers i with
    | none => exact h
    | some w =>
      dsimp only
      cases hph : w.phase with
      | waitingGet => simpa [FifoInv, backlogFns] using h
      | running c => exact h
      | stopped => exact h

theorem fifo_run (s : QState) (acts : List Act) (h : FifoInv s) :
    FifoInv (run s acts) := by
  induction acts generalizing s with
  | nil => exact h
  | cons a l ih => exact ih (step s a) (fifo_step s a h)

theorem fifo_qInit : FifoInv qInit := by
  simp [FifoInv, qInit, backlogFns]

theorem dinv_doStart (s : QState) (pf : Nat) (h : DInv s)
    (hsw : s.stopWaiting = none) : DInv (doStart s pf) := by
  obtain ⟨h1, h2, h3, h4, h5, h6⟩ := h
  unfold doStart
  by_cases hr : s.is_running = true
  · rw [if_pos hr]
    exact ⟨h1, h2, h3, h4, h5, h6⟩
  · rw [if_neg hr]
    simp only [Bool.not_eq_true] at hr
    have hall : allStopped s := h3 hr hsw
    refine ⟨?_, ?_, ?_, ?_, ?_, ?_⟩
    · dsimp only
      simp [List.length_append]
    · intro j wj hgj hlen
      dsimp only at hgj hlen
      rw [List.length_append, List.length_cons, List.length_nil] at hlen
      have hjlt : j < s.workers.length := by omega
      rw [getW_append_lt s.workers _ j hjlt] at hgj
      exact hall wj (getW_mem _ _ _ hgj)
    · intro hra
      exact Bool.noConfusion hra
    · intro k hk
      rw [hsw] at hk
      exact Option.noConfusion hk
    · intro hret
      exact Bool.noConfusion hret
    · dsimp only
      rw [curFnsL_append]
      simpa [curFnsL, wCur] using h6

theorem dinv_doAddFF (s : QState) (fn : ItemFn) (h : DInv s) :
    DInv (doAddFF s fn) := h

theorem dinv_doAddWait (s : QState) (fn : ItemFn) (h : DInv s) :
    DInv (doAddWait s fn) := h

theorem dinv_doGet (s : QState) (i : Nat) (h : DInv s) : DInv (doGet s i) := by
  obtain ⟨h1, h2, h3, h4, h5, h6⟩ := h
  unfold doGet
  cases hw : getW s.workers i with
  | none => exact ⟨h1, h2, h3, h4, h5, h6⟩
  | some w =>
    dsimp only
    cases hph : w.phase with
    | running c => exact ⟨h1, h2, h3, h4, h5, h6⟩
    | stopped => exact ⟨h1, h2, h3, h4, h5, h6⟩
    | waitingGet =>
      dsimp only
      cases hb : s.backlog with
      | nil => exact ⟨h1, h2, h3, h4, h5, h6⟩
      | cons x rest =>
        have hact : w.phase ≠ WPhase.stopped := by
          rw [hph]; exact fun hx => WPhase.noConfusion hx
        have hi1 := active_last s.workers i w h2 hw hact
        have hcur := curFnsL_active s.workers i w h2 hw hact
        refine ⟨?_, ?_, ?_, ?_, ?_, ?_⟩
        · dsimp only
          rw [length_updW]
          exact h1
        · intro j wj hgj hlen
          dsimp only at hgj hlen
          rw [length_updW] at hlen
          by_cases hji : j = i
          · subst hji
            exact absurd hlen (by omega)
          · rw [getW_updW_ne s.workers i j _ (fun hx => hji hx.symm)] at hgj
            exact h2 j wj hgj hlen
        · intro hrf hswn
          have hst := h3 hrf hswn w (getW_mem _ _ _ hw)
          rw [hph] at hst
          exact WPhase.noConfusion hst
        · intro k hk
          dsimp only
          rw [length_updW]
          exact h4 k hk
        · intro hret
          have hst := (h5 hret).2 w (getW_mem _ _ _ hw)
          rw [hph] at hst
          exact WPhase.noConfusion hst
        · dsimp only
          rw [hcur.2]
          have hnil : curFnsL s.workers = [] := by
            rw [hcur.1]; simp [wCur, hph]
          rw [hnil] at h6
          simp only [List.append_nil] at h6
          simp [wCur, h6]

theorem dinv_doStep (s : QState) (i : Nat) (h : DInv s) : DInv (doStep s i) := by
  obtain ⟨h1, h2, h3, h4, h5, h6⟩ := h
  unfold doStep
  cases hw : getW s.workers i with
  | none => exact ⟨h1, h2, h3, h4, h5, h6⟩
  | some w =>
    dsimp only
    cases hph : w.phase with
    | waitingGet => exact ⟨h1, h2, h3, h4, h5, h6⟩
    | stopped => exact ⟨h1, h2, h3, h4, h5, h6⟩
    | running c =>
      dsimp only
      cases hr : c.remaining with
      | zero => exact ⟨h1, h2, h3, h4, h5, h6⟩
      | succ k =>
        have hact : w.phase ≠ WPhase.stopped := by
          rw [hph]; exact fun hx => WPhase.noConfusion hx
        have hi1 := active_last s.workers i w h2 hw hact
        refine ⟨?_, ?_, ?_, ?_, ?_, ?_⟩
        · dsimp only
          rw [length_updW]
          exact h1
        · intro j wj hgj hlen
          dsimp only at hgj hlen
          rw [length_updW] at hlen
          by_cases hji : j = i
          · subst hji
            exact absurd hlen (by omega)
          · rw [getW_updW_ne s.workers i j _ (fun hx => hji hx.symm)] at hgj
            exact h2 j wj hgj hlen
        · intro hrf hswn
          have hst := h3 hrf hswn w (getW_mem _ _ _ hw)
          rw [hph] at hst
          exact WPhase.noConfusion hst
        · intro k2 hk2
          dsimp only
          rw [length_updW]
          exact h4 k2 hk2
        · intro hret
          have hst := (h5 hret).2 w (getW_mem _ _ _ hw)
          rw [hph] at hst
          exact WPhase.noConfusion hst
        · dsimp only
          rw [curFnsL_updW_congr s.workers i _ w hw (by simp [wCur, hph])]
          exact h6

theorem dinv_doFinish (s : QState) (i : Nat) (h : DInv s) :
    DInv (doFinish s i) := by
  obtain ⟨h1, h2, h3, h4, h5, h6⟩ := h
  unfold doFinish
  cases hw : getW s.workers i with
  | none => exact ⟨h1, h2, h3, h4, h5, h6⟩
  | some w =>
    dsimp only
    cases hph : w.phase with
    | waitingGet => exact ⟨h1, h2, h3, h4, h5, h6⟩
    | stopped => exact ⟨h1, h2, h3, h4, h5, h6⟩
    | running c =>
      dsimp only
      cases hr : c.remaining with
      | succ k => exact ⟨h1, h2, h3, h4, h5, h6⟩
      | zero =>
        have hact : w.phase ≠ WPhase.stopped := by
          rw [hph]; exact fun hx => WPhase.noConfusion hx
        have hi1 := active_last s.workers i w h2 hw hact
        have hcur := curFnsL_active s.workers i w h2 hw hact
        refine ⟨?_, ?_, ?_, ?_, ?_, ?_⟩
        · dsimp only
          rw [length_updW]
          exact h1
        · intro j wj hgj hlen
          dsimp only at hgj hlen
          rw [length_updW] at hlen
          by_cases hji : j = i
          · subst hji
            exact absurd hlen (by omega)
          · rw [getW_updW_ne s.workers i j _ (fun hx => hji hx.symm)] at hgj
            exact h2 j wj hgj hlen
        · intro hrf hswn
          have hst := h3 hrf hswn w (getW_mem _ _ _ hw)
          rw [hph] at hst
          exact WPhase.noConfusion hst
        · intro k2 hk2
          dsimp only
          rw [length_updW]
          exact h4 k2 hk2
        · intro hret
          have hst := (h5 hret).2 w (getW_mem _ _ _ hw)
          rw [hph] at hst
          exact WPhase.noConfusion hst
        · dsimp only
          rw [hcur.2]
          have hc1 : curFnsL s.workers = [c.fn] := by
            rw [hcur.1]; simp [wCur, hph]
          rw [hc1] at h6
          simp [wCur, h6]

theorem dinv_doStopBegin (s : QState) (h : DInv s) :
    DInv (doStopBegin s) := by
  obtain ⟨h1, h2, h3, h4, h5, h6⟩ := h
  unfold doStopBegin
  cases hsw : s.stopWaiting with
  | some k => exact ⟨h1, h2, h3, h4, h5, h6⟩
  | none =>
    dsimp only
    cases hwt : s.worker_task with
    | none =>
      dsimp only
      rw [hwt] at h1
      have hlen0 : s.workers.length = 0 := by
        by_cases hz : s.workers.length = 0
        · exact hz
        · rw [if_neg hz] at h1
          exact Option.noConfusion h1
      have hnil : s.workers = [] := List.length_eq_zero.mp hlen0
      have hall : allStopped s := by
        intro w hwm
        rw [hnil] at hwm
        exact absurd hwm (List.not_mem_nil w)
      refine ⟨?_, h2, ?_, ?_, ?_, h6⟩
      · dsimp only
        rw [if_pos hlen0]
      · intro _ _
        exact hall
      · intro k hk
        exact Option.noConfusion hk
      · intro _
        exact ⟨rfl, hall⟩
    | some k =>
      dsimp only
      rw [hwt] at h1
      have hkval : k = s.workers.length - 1 ∧ s.workers.length ≠ 0 := by
        by_cases hz : s.workers.length = 0
        · rw [if_pos hz] at h1
          exact absurd h1 (by simp)
        · rw [if_neg hz] at h1
          exact ⟨Option.some.inj h1, hz⟩
      obtain ⟨w0, hw0⟩ := getW_ex_of_lt s.workers k (by omega)
      refine ⟨?_, ?_, ?_, ?_, ?_, ?_⟩
      · dsimp only
        rw [length_updW]
        exact h1
      · intro j wj hgj hlen
        dsimp only at hgj hlen
        rw [length_updW] at hlen
        by_cases hji : j = k
        · subst hji
          rw [getW_updW_self, hw0] at hgj
          simp only [Option.map_some', Option.some.injEq] at hgj
          rw [← hgj]
          exact h2 j w0 hw0 hlen
        · rw [getW_updW_ne s.workers k j _ (fun hx => hji hx.symm)] at hgj
          exact h2 j wj hgj hlen
      · intro hrf hswn
        exact Option.noConfusion hswn
      · intro k2 hk2
        dsimp only
        rw [length_updW]
        have hkk : k = k2 := Option.some.inj hk2
        omega
      · intro hret
        obtain ⟨hr5, hall5⟩ := h5 hret
        refine ⟨hr5, ?_⟩
        intro wj hwj
        rcases mem_updW s.workers k _ wj hwj with hmem | ⟨w1, hg1, heq1⟩
        · exact hall5 wj hmem
        · rw [heq1]
          exact hall5 w1 (getW_mem _ _ _ hg1)
      · dsimp only
        rw [curFnsL_updW_congr s.workers k _ w0 hw0 rfl]
        exact h6

theorem dinv_doDeliverCancel (s : QState) (i : Nat) (h : DInv s) :
    DInv (doDeliverCancel s i) := by
  obtain ⟨h1, h2, h3, h4, h5, h6⟩ := h
  unfold doDeliverCancel
  cases hw : getW s.workers i with
  | none => exact ⟨h1, h2, h3, h4, h5, h6⟩
  | some w =>
    dsimp only
    cases hc : w.cancelled with
    | false => exact ⟨h1, h2, h3, h4, h5, h6⟩
    | true =>
      dsimp only
      cases hph : w.phase with
      | stopped => exact ⟨h1, h2, h3, h4, h5, h6⟩
      | waitingGet =>
        have hact : w.phase ≠ WPhase.stopped := by
          rw [hph]; exact fun hx => WPhase.noConfusion hx
        have hallf := allStopped_updW_stop s.workers i w
          (fun w => { w with phase := WPhase.stopped }) h2 hw hact rfl
        refine ⟨?_, ?_, ?_, ?_, ?_, ?_⟩
        · dsimp only
          rw [length_updW]
          exact h1
        · intro j wj hgj hlen
          exact hallf wj (getW_mem _ _ _ hgj)
        · intro _ _
          exact hallf
        · intro k hk
          dsimp only
          rw [length_updW]
          exact h4 k hk
        · intro hret
          have hst := (h5 hret).2 w (getW_mem _ _ _ hw)
          rw [hph] at hst
          exact WPhase.noConfusion hst
        · dsimp only
          rw [curFnsL_updW_congr s.workers i _ w hw (by simp [wCur, hph])]
          exact h6
      | running c =>
        dsimp only
        cases hr : c.remaining with
        | zero => exact ⟨h1, h2, h3, h4, h5, h6⟩
        | succ m =>
          have hact : w.phase ≠ WPhase.stopped := by
            rw [hph]; exact fun hx => WPhase.noConfusion hx
          have hcur := curFnsL_active s.workers i w h2 hw hact
          have hallf := allStopped_updW_stop s.workers i w
            (fun w => { w with phase := WPhase.stopped }) h2 hw hact rfl
          refine ⟨?_, ?_, ?_, ?_, ?_, ?_⟩
          · dsimp only
            rw [length_updW]
            exact h1
          · intro j wj hgj hlen
            exact hallf wj (getW_mem _ _ _ hgj)
          · intro _ _
            exact hallf
          · intro k hk
            dsimp only
            rw [length_updW]
            exact h4 k hk
          · intro hret
            have hst := (h5 hret).2 w (getW_mem _ _ _ hw)
            rw [hph] at hst
            exact WPhase.noConfusion hst
          · dsimp only
            rw [hcur.2]
            have hc1 : curFnsL s.workers = [c.fn] := by
              rw [hcur.1]; simp [wCur, hph]
            rw [hc1] at h6
            simp [wCur, h6]

theorem dinv_doStopEnd (s : QState) (h : DInv s) : DInv (doStopEnd s) := by
  obtain ⟨h1, h2, h3, h4, h5, h6⟩ := h
  unfold doStopEnd
  cases hsw : s.stopWaiting with
  | none => exact ⟨h1, h2, h3, h4, h5, h6⟩
  | some k =>
    dsimp only
    cases hw : getW s.workers k with
    | none => exact ⟨h1, h2, h3, h4, h5, h6⟩
    | some w =>
      dsimp only
      cases hph : w.phase with
      | waitingGet => exact ⟨h1, h2, h3, h4, h5, h6⟩
      | running c => exact ⟨h1, h2, h3, h4, h5, h6⟩
      | stopped =>
        have hlast := h4 k hsw
        have hall : allStopped s := allStopped_of_last s.workers k w h2 hw hph hlast
        refine ⟨h1, h2, ?_, ?_, ?_, h6⟩
        · intro _ _
          exact hall
        · intro k2 hk2
          exact Option.noConfusion hk2
        · intro _
          exact ⟨rfl, hall⟩

theorem dinv_doFatal (s : QState) (i : Nat) (h : DInv s) :
    DInv (doFatal s i) := by
  obtain ⟨h1, h2, h3, h4, h5, h6⟩ := h
  unfold doFatal
  cases hw : getW s.workers i with
  | none => exact ⟨h1, h2, h3, h4, h5, h6⟩
  | some w =>
    dsimp only
    cases hph : w.phase with
    | running c => exact ⟨h1, h2, h3, h4, h5, h6⟩
    | stopped => exact ⟨h1, h2, h3, h4, h5, h6⟩
    | waitingGet =>
      have hact : w.phase ≠ WPhase.stopped := by
        rw [hph]; exact fun hx => WPhase.noConfusion hx
      have hallf := allStopped_updW_stop s.workers i w
        (fun w => { w with phase := WPhase.stopped }) h2 hw hact rfl
      refine ⟨?_, ?_, ?_, ?_, ?_, ?_⟩
      · dsimp only
        rw [length_updW]
        exact h1
      · intro j wj hgj hlen
        exact hallf wj (getW_mem _ _ _ hgj)
      · intro _ _
        exact hallf
      · intro k hk
        dsimp only
        rw [length_updW]
        exact h4 k hk
      · intro hret
        have hst := (h5 hret).2 w (getW_mem _ _ _ hw)
        rw [hph] at hst
        exact WPhase.noConfusion hst
      · dsimp only
        rw [curFnsL_updW_congr s.workers i _ w hw (by simp [wCur, hph])]
        exact h6

theorem dinv_step (s : QState) (a : Act) (h : DInv s)
    (hd : ∀ pf, a = Act.startWorker pf → s.stopWaiting = none) :
    DInv (step s a) := by
  cases a with
  | startWorker pf => exact dinv_doStart s pf h (hd pf rfl)
  | addFF fn => exact dinv_doAddFF s fn h
  | addWait fn => exact dinv_doAddWait s fn h
  | workerGet i => exact dinv_doGet s i h
  | workerStep i => exact dinv_doStep s i h
  | workerFinish i => exact dinv_doFinish s i h
  | stopBegin => exact dinv_doStopBegin s h
  | deliverCancel i => exact dinv_doDeliverCancel s i h
  | stopEnd => exact dinv_doStopEnd s h
  | workerFatal i => exact dinv_doFatal s i h

theorem dinv_run (s : QState) (acts : List Act) (h : DInv s)
    (hd : disciplined s acts = true) : DInv (run s acts) := by
  induction acts generalizing s with
  | nil => exact h
  | cons a l ih =>
    simp only [disciplined, Bool.and_eq_true] at hd
    refine ih (step s a) (dinv_step s a h ?_) hd.2
    intro pf hpf
    subst hpf
    simpa using hd.1

theorem dinv_qInit : DInv qInit := by
  refine ⟨rfl, ?_, ?_, ?_, ?_, rfl⟩
  · intro i w hg hlen
    exact Option.noConfusion hg
  · intro _ _ w hw
    exact absurd hw (List.not_mem_nil w)
  · intro k hk
    exact Option.noConfusion hk
  · intro hret
    exact Bool.noConfusion hret

/-!
Running a worker through all the suspension points of its current item.
-/

theorem run_workerStep_fill (i : Nat) : ∀ (n : Nat) (s : QState) (w : Worker)
    (fn : ItemFn) (fu : Option Nat),
    getW s.workers i = some w →
    w.phase = .running { fn := fn, fut := fu, remaining := n } →
    run s (List.replicate n (.workerStep i)) =
      { s with workers := updW s.workers i (fun w0 =>
          { w0 with phase := .running { fn := fn, fut := fu, remaining := 0 } }) } := by
  intro n
  induction n with
  | zero =>
    intro s w fn fu hg hph
    have hf : (fun w0 => { w0 with
        phase := WPhase.running { fn := fn, fut := fu, remaining := 0 } }) w = w := by
      cases w with
      | mk pf ph cl =>
        have hph2 : ph = WPhase.running { fn := fn, fut := fu, remaining := 0 } := hph
        rw [hph2]
    simp only [List.replicate]
    rw [run, updW_eq_self s.workers i _ w hg hf]
  | succ m ih =>
    intro s w fn fu hg hph
    have hstep : step s (Act.workerStep i) =
        { s with workers := updW s.workers i (fun w0 =>
            { w0 with phase := WPhase.running { fn := fn, fut := fu, remaining := m } }) } := by
      simp only [step]
      unfold doStep
      rw [hg]
      dsimp only
      rw [hph]
    simp only [List.replicate, run]
    rw [hstep]
    rw [ih _ _ fn fu (by rw [getW_updW_self, hg]; rfl) rfl]
    rw [updW_updW]

/-!
Commutation of the transition system with relabelling of process_fn: the
worker body never reads process_fn, so relabelling it commutes with every
step.
-/

theorem getW_map_pf (f : Nat → Nat) (ws : List Worker) (i : Nat) :
    getW (ws.map fun w => { w with process_fn := f w.process_fn }) i =
      (getW ws i).map fun w => { w with process_fn := f w.process_fn } := by
  induction ws generalizing i with
  | nil => rfl
  | cons w ws ih => cases i <;> simp [getW, ih]

theorem updW_map_pf (f : Nat → Nat) (g : Worker → Worker)
    (hc : ∀ w, (fun w => { w with process_fn := f w.process_fn }) (g w) =
      g ((fun w => { w with process_fn := f w.process_fn }) w))
    (ws : List Worker) (i : Nat) :
    updW (ws.map fun w => { w with process_fn := f w.process_fn }) i g =
      (updW ws i g).map fun w => { w with process_fn := f w.process_fn } := by
  induction ws generalizing i with
  | nil => rfl
  | cons w ws ih =>
    cases i with
    | zero => simp [updW, (hc w).symm]
    | succ j => simp [updW, ih]

theorem getW_mapPf (f : Nat → Nat) (s : QState) (i : Nat) :
    getW (mapPfState f s).workers i =
      (getW s.workers i).map fun w => { w with process_fn := f w.process_fn } := by
  unfold mapPfState
  dsimp only
  rw [getW_map_pf]

theorem step_mapPf (f : Nat → Nat) (s : QState) (a : Act) :
    step (mapPfState f s) (Act.relabelPf f a) = mapPfState f (step s a) := by
  cases a with
  | startWorker pf =>
    simp only [Act.relabelPf, step]
    unfold doStart mapPfState
    dsimp only
    by_cases hr : s.is_running = true
    · rw [if_pos hr, if_pos hr]
    · rw [if_neg hr, if_neg hr]
      simp [List.map_append, List.length_map]
  | addFF fn =>
    simp only [Act.relabelPf, step]
    unfold doAddFF mapPfState
    rfl
  | addWait fn =>
    simp only [Act.relabelPf, step]
    unfold doAddWait mapPfState
    rfl
  | workerGet i =>
    simp only [Act.relabelPf, step]
    cases hg : getW s.workers i with
    | none =>
      have hL : doGet (mapPfState f s) i = mapPfState f s := by
        unfold doGet
        rw [getW_mapPf, hg, Option.map_none']
      have hR : doGet s i = s := by
        unfold doGet
        rw [hg]
      rw [hL, hR]
    | some w =>
      have hgm : getW (mapPfState f s).workers i =
          some { w with process_fn := f w.process_fn } := by
        rw [getW_mapPf, hg, Option.map_some']
      cases hph : w.phase with
      | running c =>
        have hL : doGet (mapPfState f s) i = mapPfState f s := by
          unfold doGet
          rw [hgm]
          dsimp only
          rw [hph]
        have hR : doGet s i = s := by
          unfold doGet
          rw [hg]
          dsimp only
          rw [hph]
        rw [hL, hR]
      | stopped =>
        have hL : doGet (mapPfState f s) i = mapPfState f s := by
          unfold doGet
          rw [hgm]
          dsimp only
          rw [hph]
        have hR : doGet s i = s := by
          unfold doGet
          rw [hg]
          dsimp only
          rw [hph]
        rw [hL, hR]
      | waitingGet =>
        cases hb : s.backlog with
        | nil =>
          have hL : doGet (mapPfState f s) i = mapPfState f s := by
            unfold doGet
            rw [hgm]
            dsimp only
            rw [hph]
            dsimp only
            rw [show (mapPfState f s).backlog = [] from hb]
          have hR : doGet s i = s := by
            unfold doGet
            rw [hg]
            dsimp only
            rw [hph]
            dsimp only
            rw [hb]
          rw [hL, hR]
        | cons x rest =>
          have hL : doGet (mapPfState f s) i =
              { mapPfState f s with
                backlog := rest
                workers := updW (mapPfState f s).workers i (fun w0 => { w0 with
                  phase := WPhase.running { fn := x.fn, fut := x.fut, remaining := x.fn.susp } })
                started := (mapPfState f s).started ++ [x.fn] } := by
            unfold doGet
            rw [hgm]
            dsimp only
            rw [hph]
            dsimp only
            rw [show (mapPfState f s).backlog = x :: rest from hb]
          have hR : doGet s i =
              { s with
                backlog := rest
                workers := updW s.workers i (fun w0 => { w0 with
                  phase := WPhase.running { fn := x.fn, fut := x.fut, remaining := x.fn.susp } })
                started := s.started ++ [x.fn] } := by
            unfold doGet
            rw [hg]
            dsimp only
            rw [hph]
            dsimp only
            rw [hb]
          rw [hL, hR]
          unfold mapPfState
          dsimp only
          rw [updW_map_pf f _ (fun w0 => rfl)]
  | workerStep i =>
    simp only [Act.relabelPf, step]
    cases hg : getW s.workers i with
    | none =>
      have hL : doStep (mapPfState f s) i = mapPfState f s := by
        unfold doStep
        rw [getW_mapPf, hg, Option.map_none']
      have hR : doStep s i = s := by
        unfold doStep
        rw [hg]
      rw [hL, hR]
    | some w =>
      have hgm : getW (mapPfState f s).workers i =
          some { w with process_fn := f w.process_fn } := by
        rw [getW_mapPf, hg, Option.map_some']
      cases hph : w.phase with
      | waitingGet =>
        have hL : doStep (mapPfState f s) i = mapPfState f s := by
          unfold doStep
          rw [hgm]
          dsimp only
          rw [hph]
        have hR : doStep s i = s := by
          unfold doStep
          rw [hg]
          dsimp only
          rw [hph]
        rw [hL, hR]
      | stopped =>
        have hL : doStep (mapPfState f s) i = mapPfState f s := by
          unfold doStep
          rw [hgm]
          dsimp only
          rw [hph]
        have hR : doStep s i = s := by
          unfold doStep
          rw [hg]
          dsimp only
          rw [hph]
        rw [hL, hR]
      | running c =>
        cases hr : c.remaining with
        | zero =>
          have hL : doStep (mapPfState f s) i = mapPfState f s := by
            unfold doStep
            rw [hgm]
            dsimp only
            rw [hph]
            dsimp only
            rw [hr]
          have hR : doStep s i = s := by
            unfold doStep
            rw [hg]
            dsimp only
            rw [hph]
            dsimp only
            rw [hr]
          rw [hL, hR]
        | succ k =>
          have hL : doStep (mapPfState f s) i =
              { mapPfState f s with
                workers := updW (mapPfState f s).workers i (fun w0 =>
                  { w0 with phase := WPhase.running { c with remaining := k } }) } := by
            unfold doStep
            rw [hgm]
            dsimp only
            rw [hph]
            dsimp only
            rw [hr]
          have hR : doStep s i =
              { s with
                workers := updW s.workers i (fun w0 =>
                  { w0 with phase := WPhase.running { c with remaining := k } }) } := by
            unfold doStep
            rw [hg]
            dsimp only
            rw [hph]
            dsimp only
            rw [hr]
          rw [hL, hR]
          unfold mapPfState
          dsimp only
          rw [updW_map_pf f _ (fun w0 => rfl)]
  | workerFinish i =>
    simp only [Act.relabelPf, step]
    cases hg : getW s.workers i with
    | none =>
      have hL : doFinish (mapPfState f s) i = mapPfState f s := by
        unfold doFinish
        rw [getW_mapPf, hg, Option.map_none']
      have hR : doFinish s i = s := by
        unfold doFinish
        rw [hg]
      rw [hL, hR]
    | some w =>
      have hgm : getW (mapPfState f s).workers i =
          some { w with process_fn := f w.process_fn } := by
        rw [getW_mapPf, hg, Option.map_some']
      cases hph : w.phase with
      | waitingGet =>
        have hL : doFinish (mapPfState f s) i = mapPfState f s := by
          unfold doFinish
          rw [hgm]
          dsimp only
          rw [hph]
        have hR : doFinish s i = s := by
          unfold doFinish
          rw [hg]
          dsimp only
          rw [hph]
        rw [hL, hR]
      | stopped =>
        have hL : doFinish (mapPfState f s) i = mapPfState f s := by
          unfold doFinish
          rw [hgm]
          dsimp only
          rw [hph]
        have hR : doFinish s i = s := by
          unfold doFinish
          rw [hg]
          dsimp only
          rw [hph]
        rw [hL, hR]
      | running c =>
        cases hr : c.remaining with
        | succ k =>
          have hL : doFinish (mapPfState f s) i = mapPfState f s := by
            unfold doFinish
            rw [hgm]
            dsimp only
            rw [hph]
            dsimp only
            rw [hr]
          have hR : doFinish s i = s := by
            unfold doFinish
            rw [hg]
            dsimp only
            rw [hph]
            dsimp only
            rw [hr]
          rw [hL, hR]
        | zero =>
          have hL : doFinish (mapPfState f s) i =
              { mapPfState f s with
                workers := updW (mapPfState f s).workers i (fun w0 =>
                  { w0 with phase := WPhase.waitingGet })
                futures :=
                  match c.fut with
                  | some fid =>
                    match c.fn.outcome with
                    | Outcome.ok v => setFut (mapPfState f s).futures fid (FutVal.res (some v))
                    | Outcome.err e => setFut (mapPfState f s).futures fid (FutVal.exc e)
                  | none => (mapPfState f s).futures
                executed := (mapPfState f s).executed ++ [c.fn]
                processed := (mapPfState f s).processed ++ [c.fn] } := by
            unfold doFinish
            rw [hgm]
            dsimp only
            rw [hph]
            dsimp only
            rw [hr]
          have hR : doFinish s i =
              { s with
                workers := updW s.workers i (fun w0 =>
                  { w0 with phase := WPhase.waitingGet })
                futures :=
                  match c.fut with
                  | some fid =>
                    match c.fn.outcome with
                    | Outcome.ok v => setFut s.futures fid (FutVal.res (some v))
                    | Outcome.err e => setFut s.futures fid (FutVal.exc e)
                  | none => s.futures
                executed := s.executed ++ [c.fn]
                processed := s.processed ++ [c.fn] } := by
            unfold doFinish
            rw [hg]
            dsimp only
            rw [hph]
            dsimp only
            rw [hr]
          rw [hL, hR]
          unfold mapPfState
          dsimp only
          rw [updW_map_pf f _ (fun w0 => rfl)]
  | stopBegin =>
    simp only [Act.relabelPf, step]
    cases hsw : s.stopWaiting with
    | some k =>
      have hL : doStopBegin (mapPfState f s) = mapPfState f s := by
        unfold doStopBegin
        rw [show (mapPfState f s).stopWaiting = some k from hsw]
      have hR : doStopBegin s = s := by
        unfold doStopBegin
        rw [hsw]
      rw [hL, hR]
    | none =>
      cases hwt : s.worker_task with
      | none =>
        have hL : doStopBegin (mapPfState f s) =
            { mapPfState f s with is_running := false, stopReturned := true } := by
          unfold doStopBegin
          rw [show (mapPfState f s).stopWaiting = none from hsw]
          dsimp only
          rw [show (mapPfState f s).worker_task = none from hwt]
          rw [show (mapPfState f s).stopWaiting = none from hsw]
        have hR : doStopBegin s =
            { s with is_running := false, stopReturned := true } := by
          unfold doStopBegin
          rw [hsw]
          dsimp only
          rw [hwt]
        rw [hL, hR]
        rfl
      | some k =>
        have hL : doStopBegin (mapPfState f s) =
            { mapPfState f s with
              workers := updW (mapPfState f s).workers k (fun w0 =>
                { w0 with cancelled := true })
              stopWaiting := some k } := by
          unfold doStopBegin
          rw [show (mapPfState f s).stopWaiting = none from hsw]
          dsimp only
          rw [show (mapPfState f s).worker_task = some k from hwt]
        have hR : doStopBegin s =
            { s with
              workers := updW s.workers k (fun w0 => { w0 with cancelled := true })
              stopWaiting := some k } := by
          unfold doStopBegin
          rw [hsw]
          dsimp only
          rw [hwt]
        rw [hL, hR]
        unfold mapPfState
        dsimp only
        rw [updW_map_pf f _ (fun w0 => rfl)]
  | deliverCancel i =>
    simp only [Act.relabelPf, step]
    cases hg : getW s.workers i with
    | none =>
      have hL : doDeliverCancel (mapPfState f s) i = mapPfState f s := by
        unfold doDeliverCancel
        rw [getW_mapPf, hg, Option.map_none']
      have hR : doDeliverCancel s i = s := by
        unfold doDeliverCancel
        rw [hg]
      rw [hL, hR]
    | some w =>
      have hgm : getW (mapPfState f s).workers i =
          some { w with process_fn := f w.process_fn } := by
        rw [getW_mapPf, hg, Option.map_some']
      cases hc : w.cancelled with
      | false =>
        have hL : doDeliverCancel (mapPfState f s) i = mapPfState f s := by
          unfold doDeliverCancel
          rw [hgm]
          dsimp only
          rw [hc]
        have hR : doDeliverCancel s i = s := by
          unfold doDeliverCancel
          rw [hg]
          dsimp only
          rw [hc]
        rw [hL, hR]
      | true =>
        cases hph : w.phase with
        | stopped =>
          have hL : doDeliverCancel (mapPfState f s) i = mapPfState f s := by
            unfold doDeliverCancel
            rw [hgm]
            dsimp only
            rw [hc]
            dsimp only
            rw [hph]
          have hR : doDeliverCancel s i = s := by
            unfold doDeliverCancel
            rw [hg]
            dsimp only
            rw [hc]
            dsimp only
            rw [hph]
          rw [hL, hR]
        | waitingGet =>
          have hL : doDeliverCancel (mapPfState f s) i =
              { mapPfState f s with
                workers := updW (mapPfState f s).workers i (fun w0 =>
                  { w0 with phase := WPhase.stopped })
                is_running := false } := by
            unfold doDeliverCancel
            rw [hgm]
            dsimp only
            rw [hc]
            dsimp only
            rw [hph]
          have hR : doDeliverCancel s i =
              { s with
                workers := updW s.workers i (fun w0 =>
                  { w0 with phase := WPhase.stopped })
                is_running := false } := by
            unfold doDeliverCancel
            rw [hg]
            dsimp only
            rw [hc]
            dsimp only
            rw [hph]
          rw [hL, hR]
          unfold mapPfState
          dsimp only
          rw [updW_map_pf f _ (fun w0 => rfl)]
        | running c =>
          cases hr : c.remaining with
          | zero =>
            have hL : doDeliverCancel (mapPfState f s) i = mapPfState f s := by
              unfold doDeliverCancel
              rw [hgm]
              dsimp only
              rw [hc]
              dsimp only
              rw [hph]
              dsimp only
              rw [hr]
            have hR : doDeliverCancel s i = s := by
              unfold doDeliverCancel
              rw [hg]
              dsimp only
              rw [hc]
              dsimp only
              rw [hph]
              dsimp only
              rw [hr]
            rw [hL, hR]
          | succ m =>
            have hL : doDeliverCancel (mapPfState f s) i =
                { mapPfState f s with
                  workers := updW (mapPfState f s).workers i (fun w0 =>
                    { w0 with phase := WPhase.stopped })
                  is_running := false
                  futures :=
                    match c.fut with
                    | some fid => setFut (mapPfState f s).futures fid (FutVal.res none)
                    | none => (mapPfState f s).futures
                  processed := (mapPfState f s).processed ++ [c.fn] } := by
              unfold doDeliverCancel
              rw [hgm]
              dsimp only
              rw [hc]
              dsimp only
              rw [hph]
              dsimp only
              rw [hr]
            have hR : doDeliverCancel s i =
                { s with
                  workers := updW s.workers i (fun w0 =>
                    { w0 with phase := WPhase.stopped })
                  is_running := false
                  futures :=
                    match c.fut with
                    | some fid => setFut s.futures fid (FutVal.res none)
                    | none => s.futures
                  processed := s.processed ++ [c.fn] } := by
              unfold doDeliverCancel
              rw [hg]
              dsimp only
              rw [hc]
              dsimp only
              rw [hph]
              dsimp only
              rw [hr]
            rw [hL, hR]
            unfold mapPfState
            dsimp only
            rw [updW_map_pf f _ (fun w0 => rfl)]
  | stopEnd =>
    simp only [Act.relabelPf, step]
    cases hsw : s.stopWaiting with
    | none =>
      have hL : doStopEnd (mapPfState f s) = mapPfState f s := by
        unfold doStopEnd
        rw [show (mapPfState f s).stopWaiting = none from hsw]
      have hR : doStopEnd s = s := by
        unfold doStopEnd
        rw [hsw]
      rw [hL, hR]
    | some k =>
      cases hg : getW s.workers k with
      | none =>
        have hL : doStopEnd (mapPfState f s) = mapPfState f s := by
          unfold doStopEnd
          rw [show (mapPfState f s).stopWaiting = some k from hsw]
          dsimp only
          rw [getW_mapPf, hg, Option.map_none']
        have hR : doStopEnd s = s := by
          unfold doStopEnd
          rw [hsw]
          dsimp only
          rw [hg]
        rw [hL, hR]
      | some w =>
        have hgm : getW (mapPfState f s).workers k =
            some { w with process_fn := f w.process_fn } := by
          rw [getW_mapPf, hg, Option.map_some']
        cases hph : w.phase with
        | waitingGet =>
          have hL : doStopEnd (mapPfState f s) = mapPfState f s := by
            unfold doStopEnd
            rw [show (mapPfState f s).stopWaiting = some k from hsw]
            dsimp only
            rw [hgm]
            dsimp only
            rw [hph]
          have hR : doStopEnd s = s := by
            unfold doStopEnd
            rw [hsw]
            dsimp only
            rw [hg]
            dsimp only
            rw [hph]
          rw [hL, hR]
        | running c =>
          have hL : doStopEnd (mapPfState f s) = mapPfState f s := by
            unfold doStopEnd
            rw [show (mapPfState f s).stopWaiting = some k from hsw]
            dsimp only
            rw [hgm]
            dsimp only
            rw [hph]
          have hR : doStopEnd s = s := by
            unfold doStopEnd
            rw [hsw]
            dsimp only
            rw [hg]
            dsimp only
            rw [hph]
          rw [hL, hR]
        | stopped =>
          have hL : doStopEnd (mapPfState f s) =
              { mapPfState f s with
                is_running := false
                stopWaiting := none
                stopReturned := true } := by
            unfold doStopEnd
            rw [show (mapPfState f s).stopWaiting = some k from hsw]
            dsimp only
            rw [hgm]
            dsimp only
            rw [hph]
          have hR : doStopEnd s =
              { s with
                is_running := false
                stopWaiting := none
                stopReturned := true } := by
            unfold doStopEnd
            rw [hsw]
            dsimp only
            rw [hg]
            dsimp only
            rw [hph]
          rw [hL, hR]
          rfl
  | workerFatal i =>
    simp only [Act.relabelPf, step]
    cases hg : getW s.workers i with
    | none =>
      have hL : doFatal (mapPfState f s) i = mapPfState f s := by
        unfold doFatal
        rw [getW_mapPf, hg, Option.map_none']
      have hR : doFatal s i = s := by
        unfold doFatal
        rw [hg]
      rw [hL, hR]
    | some w =>
      have hgm : getW (mapPfState f s).workers i =
          some { w with process_fn := f w.process_fn } := by
        rw [getW_mapPf, hg, Option.map_some']
      cases hph : w.phase with
      | running c =>
        have hL : doFatal (mapPfState f s) i = mapPfState f s := by
          unfold doFatal
          rw [hgm]
          dsimp only
          rw [hph]
        have hR : doFatal s i = s := by
          unfold doFatal
          rw [hg]
          dsimp only
          rw [hph]
        rw [hL, hR]
      | stopped =>
        have hL : doFatal (mapPfState f s) i = mapPfState f s := by
          unfold doFatal
          rw [hgm]
          dsimp only
          rw [hph]
        have hR : doFatal s i = s := by
          unfold doFatal
          rw [hg]
          dsimp only
          rw [hph]
        rw [hL, hR]
      | waitingGet =>
        have hL : doFatal (mapPfState f s) i =
            { mapPfState f s with
              workers := updW (mapPfState f s).workers i (fun w0 =>
                { w0 with phase := WPhase.stopped })
              is_running := false } := by
          unfold doFatal
          rw [hgm]
          dsimp only
          rw [hph]
        have hR : doFatal s i =
            { s with
              workers := updW s.workers i (fun w0 =>
                { w0 with phase := WPhase.stopped })
              is_running := false } := by
          unfold doFatal
          rw [hg]
          dsimp only
          rw [hph]
        rw [hL, hR]
        unfold mapPfState
        dsimp only
        rw [updW_map_pf f _ (fun w0 => rfl)]

theorem run_mapPf (f : Nat → Nat) (s : QState) (acts : List Act) :
    run (mapPfState f s) (acts.map (Act.relabelPf f)) =
      mapPfState f (run s acts) := by
  induction acts generalizing s with
  | nil => rfl
  | cons a l ih =>
    simp only [List.map_cons, run]
    rw [step_mapPf, ih]


/-!
Lemmas about the registry.
-/

theorem findQ_some_mem (e : List (String × Nat)) (g : String) (i : Nat)
    (h : findQ e g = some i) : (g, i) ∈ e := by
  induction e with
  | nil => exact Option.noConfusion h
  | cons p ps ih =>
    simp only [findQ] at h
    by_cases hp : p.1 = g
    · rw [if_pos hp] at h
      have hv : p.2 = i := Option.some.inj h
      have : p = (g, i) := by
        cases p
        simp only at hp hv
        rw [hp, hv]
      rw [← this]
      exact List.mem_cons_self p ps
    · rw [if_neg hp] at h
      exact List.mem_cons_of_mem _ (ih h)

theorem findQ_none_not_mem (e : List (String × Nat)) (g : String)
    (h : findQ e g = none) : g ∉ e.map Prod.fst := by
  induction e with
  | nil => simp
  | cons p ps ih =>
    simp only [findQ] at h
    by_cases hp : p.1 = g
    · rw [if_pos hp] at h
      exact Option.noConfusion h
    · rw [if_neg hp] at h
      simp only [List.map_cons, List.mem_cons]
      rintro (hg | hg)
      · exact hp hg.symm
      · exact ih h hg

theorem findQ_append_none (e : List (String × Nat)) (g : String) (n : Nat)
    (h : findQ e g = none) : findQ (e ++ [(g, n)]) g = some n := by
  induction e with
  | nil => simp [findQ]
  | cons p ps ih =>
    simp only [findQ] at h
    by_cases hp : p.1 = g
    · rw [if_pos hp] at h
      exact Option.noConfusion h
    · rw [if_neg hp] at h
      simp only [List.cons_append, findQ, if_neg hp]
      exact ih h

/-- Registry invariant: entry values are the creation indices 0, 1, ... in
order, there is exactly one stored queue per entry, and keys are unique. -/
def RegInv (r : RegState) : Prop :=
  r.entries.map Prod.snd = List.range r.entries.length ∧
  r.queues.length = r.entries.length ∧
  (r.entries.map Prod.fst).Nodup

theorem regInv_regInit : RegInv regInit :=
  ⟨rfl, rfl, List.nodup_nil⟩

theorem regInv_get (r : RegState) (g : String) (h : RegInv r) :
    RegInv (get_episode_queue r g).2 := by
  obtain ⟨h1, h2, h3⟩ := h
  unfold get_episode_queue
  cases hf : findQ r.entries g with
  | some i => exact ⟨h1, h2, h3⟩
  | none =>
    dsimp only
    refine ⟨?_, ?_, ?_⟩
    · rw [List.map_append, h1, List.length_append]
      simp [List.range_succ, h2]
    · simp [List.length_append, h2]
    · rw [List.map_append]
      simp only [List.map_cons, List.map_nil]
      refine List.Nodup.append h3 (List.nodup_singleton g) ?_
      intro a ha hb
      simp only [List.mem_singleton] at hb
      subst hb
      exact findQ_none_not_mem r.entries a hf ha

theorem regInv_runReg (gs : List String) : ∀ (r : RegState), RegInv r →
    RegInv (runReg r gs) := by
  induction gs with
  | nil => exact fun r h => h
  | cons g rest ih =>
    intro r h
    exact ih _ (regInv_get r g h)

theorem runReg_keys (gs : List String) : ∀ (r : RegState) (x : String),
    x ∈ (runReg r gs).entries.map Prod.fst ↔
      x ∈ r.entries.map Prod.fst ∨ x ∈ gs := by
  induction gs with
  | nil => simp [runReg]
  | cons g rest ih =>
    intro r x
    simp only [runReg]
    rw [ih]
    unfold get_episode_queue
    cases hf : findQ r.entries g with
    | some i =>
      dsimp only
      have hgk : g ∈ r.entries.map Prod.fst :=
        List.mem_map.mpr ⟨(g, i), findQ_some_mem r.entries g i hf, rfl⟩
      constructor
      · rintro (h | h)
        · exact Or.inl h
        · exact Or.inr (List.mem_cons_of_mem _ h)
      · rintro (h | h)
        · exact Or.inl h
        · rcases List.mem_cons.mp h with heq | h2
          · subst heq
            exact Or.inl hgk
          · exact Or.inr h2
    | none =>
      dsimp only
      rw [List.map_append]
      simp only [List.map_cons, List.map_nil, List.mem_append,
        List.mem_singleton, List.mem_cons]
      tauto

theorem findQ_inj (e : List (String × Nat))
    (h : (e.map Prod.snd).Nodup) (g1 g2 : String) (i j : Nat)
    (h1 : findQ e g1 = some i) (h2 : findQ e g2 = some j)
    (hne : g1 ≠ g2) : i ≠ j := by
  intro hij
  subst hij
  have m1 := findQ_some_mem e g1 i h1
  have m2 := findQ_some_mem e g2 i h2
  have := List.inj_on_of_nodup_map h m1 m2 rfl
  exact hne (congrArg Prod.fst this)


/-!
Frozen-queue lemmas: once every worker task of a queue has finished, no
schedule without a start_worker call dequeues anything, and the backlog
only grows at the tail.
-/

/-- Whether a schedule contains a start_worker call. -/
def hasStart : List Act → Bool
  | [] => false
  | Act.startWorker _ :: _ => true
  | _ :: rest => hasStart rest

theorem hasStart_cons (a : Act) (rest : List Act)
    (h : hasStart (a :: rest) = false) :
    (∀ pf, a ≠ Act.startWorker pf) ∧ hasStart rest = false := by
  cases a <;> simp [hasStart] at h ⊢ <;> exact h

theorem frozen_step (s : QState) (a : Act) (hstop : allStopped s)
    (hna : ∀ pf, a ≠ Act.startWorker pf) :
    allStopped (step s a) ∧ (step s a).started = s.started ∧
      s.backlog <+: (step s a).backlog := by
  cases a with
  | startWorker pf => exact absurd rfl (hna pf)
  | addFF fn => exact ⟨hstop, rfl, List.prefix_append _ _⟩
  | addWait fn => exact ⟨hstop, rfl, List.prefix_append _ _⟩
  | workerGet i =>
    have hred : step s (Act.workerGet i) = s := by
      simp only [step]
      unfold doGet
      cases hw : getW s.workers i with
      | none => rfl
      | some w =>
        dsimp only
        rw [hstop w (getW_mem _ _ _ hw)]
    rw [hred]
    exact ⟨hstop, rfl, List.prefix_refl _⟩
  | workerStep i =>
    have hred : step s (Act.workerStep i) = s := by
      simp only [step]
      unfold doStep
      cases hw : getW s.workers i with
      | none => rfl
      | some w =>
        dsimp only
        rw [hstop w (getW_mem _ _ _ hw)]
    rw [hred]
    exact ⟨hstop, rfl, List.prefix_refl _⟩
  | workerFinish i =>
    have hred : step s (Act.workerFinish i) = s := by
      simp only [step]
      unfold doFinish
      cases hw : getW s.workers i with
      | none => rfl
      | some w =>
        dsimp only
        rw [hstop w (getW_mem _ _ _ hw)]
    rw [hred]
    exact ⟨hstop, rfl, List.prefix_refl _⟩
  | workerFatal i =>
    have hred : step s (Act.workerFatal i) = s := by
      simp only [step]
      unfold doFatal
      cases hw : getW s.workers i with
      | none => rfl
      | some w =>
        dsimp only
        rw [hstop w (getW_mem _ _ _ hw)]
    rw [hred]
    exact ⟨hstop, rfl, List.prefix_refl _⟩
  | deliverCancel i =>
    have hred : step s (Act.deliverCancel i) = s := by
      simp only [step]
      unfold doDeliverCancel
      cases hw : getW s.workers i with
      | none => rfl
      | some w =>
        dsimp only
        cases hc : w.cancelled with
        | false => rfl
        | true =>
          dsimp only
          rw [hstop w (getW_mem _ _ _ hw)]
    rw [hred]
    exact ⟨hstop, rfl, List.prefix_refl _⟩
  | stopBegin =>
    simp only [step]
    unfold doStopBegin
    cases hsw : s.stopWaiting with
    | some k => exact ⟨hstop, rfl, List.prefix_refl _⟩
    | none =>
      dsimp only
      cases hwt : s.worker_task with
      | none => exact ⟨hstop, rfl, List.prefix_refl _⟩
      | some k =>
        refine ⟨?_, rfl, List.prefix_refl _⟩
        intro w hwm
        rcases mem_updW s.workers k _ w hwm with hmem | ⟨w0, hg0, heq⟩
        · exact hstop w hmem
        · rw [heq]
          exact hstop w0 (getW_mem _ _ _ hg0)
  | stopEnd =>
    simp only [step]
    unfold doStopEnd
    cases hsw : s.stopWaiting with
    | none => exact ⟨hstop, rfl, List.prefix_refl _⟩
    | some k =>
      dsimp only
      cases hw : getW s.workers k with
      | none => exact ⟨hstop, rfl, List.prefix_refl _⟩
      | some w =>
        dsimp only
        cases hph : w.phase with
        | waitingGet => exact ⟨hstop, rfl, List.prefix_refl _⟩
        | running c => exact ⟨hstop, rfl, List.prefix_refl _⟩
        | stopped => exact ⟨hstop, rfl, List.prefix_refl _⟩

theorem frozen_run (t2 : List Act) : ∀ (s : QState), allStopped s →
    hasStart t2 = false →
    allStopped (run s t2) ∧ (run s t2).started = s.started ∧
      s.backlog <+: (run s t2).backlog := by
  induction t2 with
  | nil => exact fun s h _ => ⟨h, rfl, List.prefix_refl _⟩
  | cons a rest ih =>
    intro s hstop hns
    obtain ⟨hna, hns2⟩ := hasStart_cons a rest hns
    obtain ⟨h1, h2, h3⟩ := frozen_step s a hstop hna
    obtain ⟨g1, g2, g3⟩ := ih (step s a) h1 hns2
    exact ⟨g1, by rw [run, g2, h2], h3.trans g3⟩

/-!
The claims.
-/

/-- C1: items in one partition queue are dequeued and executed in exactly
the order they were enqueued.  In every reachable state the items handed to
execution, in dequeue order, followed by the current backlog contents are
exactly the full enqueue sequence (no reordering, no skipping); and in
every disciplined run the items whose handling has finished, followed by
the at-most-one item currently executing, are exactly the dequeue
sequence. -/
theorem C1_fifo_order (acts : List Act) :
    (run qInit acts).started ++ backlogFns (run qInit acts) =
      (run qInit acts).enqueued ∧
    (disciplined qInit acts = true →
      (run qInit acts).processed ++ curFns (run qInit acts) =
        (run qInit acts).started) := by
  refine ⟨fifo_run qInit acts fifo_qInit, fun hd => ?_⟩
  exact (dinv_run qInit acts dinv_qInit hd).2.2.2.2.2

/-- Schedule used by the C1 witness. -/
def c1Trace : List Act :=
  [Act.startWorker 0, Act.addFF ⟨1, Outcome.ok 4⟩,
   Act.addWait ⟨0, Outcome.ok 5⟩, Act.workerGet 0]

theorem C1_fifo_order_witness :
    (run qInit c1Trace).started ++ backlogFns (run qInit c1Trace) =
      (run qInit c1Trace).enqueued ∧
    (run qInit c1Trace).processed ++ curFns (run qInit c1Trace) =
      (run qInit c1Trace).started :=
  ⟨(C1_fifo_order c1Trace).1, (C1_fifo_order c1Trace).2 (by decide)⟩

/-- Schedule refuting C3: a wait-for-completion item with one suspension
point is dequeued, then stop() is called and the CancelledError is
delivered inside await episode_fn(). -/
def c3Trace : List Act :=
  [Act.startWorker 0, Act.addWait ⟨1, Outcome.ok 7⟩, Act.workerGet 0,
   Act.stopBegin, Act.deliverCancel 0, Act.stopEnd]

/-- C3 counterexample: stop() can interrupt the in-flight item.  After
c3Trace the item was dequeued for execution but never ran to completion
(executed stays empty), the worker is gone and stop() has returned; the
interruption is visible on the future, which the finally block resolved to
set_result(None) instead of the item's own outcome 7. -/
theorem C3_stop_interrupts_inflight :
    (run qInit c3Trace).started = [⟨1, Outcome.ok 7⟩] ∧
    (run qInit c3Trace).executed = [] ∧
    (run qInit c3Trace).stopReturned = true ∧
    activeCount (run qInit c3Trace) = 0 ∧
    getFut (run qInit c3Trace).futures 0 = some (some (FutVal.res none)) := by
  decide

/-- C3 amended: cancellation is delivered only at the worker's suspension
points: while it idles in await queue.get(), or at a suspension point
strictly inside the in-flight item's execution — so an in-flight item that
suspends can be interrupted mid-execution, and only an in-flight item with
no suspension point left is guaranteed to finish (delivery there is a
no-op). -/
theorem C3_cancellation_at_suspension_points (s : QState) (i : Nat) :
    (step s (Act.deliverCancel i) ≠ s →
      ∃ w, getW s.workers i = some w ∧ w.cancelled = true ∧
        (w.phase = WPhase.waitingGet ∨
          ∃ c, w.phase = WPhase.running c ∧ 0 < c.remaining)) ∧
    (∀ w c, getW s.workers i = some w → w.phase = WPhase.running c →
      c.remaining = 0 → step s (Act.deliverCancel i) = s) := by
  constructor
  · intro hne
    simp only [step] at hne
    unfold doDeliverCancel at hne
    cases hw : getW s.workers i with
    | none => rw [hw] at hne; exact absurd rfl hne
    | some w =>
      rw [hw] at hne
      dsimp only at hne
      cases hc : w.cancelled with
      | false => rw [hc] at hne; exact absurd rfl hne
      | true =>
        rw [hc] at hne
        dsimp only at hne
        cases hph : w.phase with
        | stopped => rw [hph] at hne; exact absurd rfl hne
        | waitingGet => exact ⟨w, rfl, hc, Or.inl hph⟩
        | running c =>
          cases hr : c.remaining with
          | zero =>
            rw [hph] at hne
            dsimp only at hne
            rw [hr] at hne
            exact absurd rfl hne
          | succ m =>
            exact ⟨w, rfl, hc, Or.inr ⟨c, hph, by rw [hr]; exact Nat.succ_pos m⟩⟩
  · intro w c hw hph hr
    simp only [step]
    unfold doDeliverCancel
    rw [hw]
    dsimp only
    cases hc : w.cancelled with
    | false => rfl
    | true =>
      dsimp only
      rw [hph]
      dsimp only
      rw [hr]

theorem C3_cancellation_witness :
    (∃ w, getW (run qInit [Act.startWorker 0, Act.stopBegin]).workers 0 =
        some w ∧ w.cancelled = true ∧
        (w.phase = WPhase.waitingGet ∨
          ∃ c, w.phase = WPhase.running c ∧ 0 < c.remaining)) ∧
    step (run qInit [Act.startWorker 0, Act.addFF ⟨0, Outcome.ok 5⟩,
        Act.workerGet 0, Act.stopBegin]) (Act.deliverCancel 0) =
      run qInit [Act.startWorker 0, Act.addFF ⟨0, Outcome.ok 5⟩,
        Act.workerGet 0, Act.stopBegin] :=
  ⟨(C3_cancellation_at_suspension_points _ 0).1 (by decide),
   (C3_cancellation_at_suspension_points _ 0).2
     ⟨0, WPhase.running ⟨⟨0, Outcome.ok 5⟩, none, 0⟩, true⟩
     ⟨⟨0, Outcome.ok 5⟩, none, 0⟩ (by decide) (by decide) (by decide)⟩

/-- Schedule refuting the at-most-one-worker part of C5: start_worker runs
in the window while stop() is still suspended in await self.worker_task
(after the old worker already finished and set is_running = False); when
stop() then resumes it sets is_running = False again, so one more
start_worker spawns a second live worker. -/
def c5Trace : List Act :=
  [Act.startWorker 0, Act.stopBegin, Act.deliverCancel 0, Act.startWorker 0,
   Act.stopEnd, Act.startWorker 0]

/-- C5 counterexample: after c5Trace two worker tasks of the same queue
are live at the same time. -/
theorem C5_two_workers_after_stop_race :
    activeCount (run qInit c5Trace) = 2 := by decide

/-- C5 amended: start_worker is idempotent — while is_running it changes
nothing — and in every disciplined run (start_worker never invoked while a
stop() call is in flight) at most one worker task of the queue is live at
any time, including after stops, worker-fatal failures and restarts. -/
theorem C5_start_idempotent_single_worker :
    (∀ (s : QState) (pf : Nat), s.is_running = true →
      step s (Act.startWorker pf) = s) ∧
    (∀ (acts : List Act) (i j : Nat) (wi wj : Worker),
      disciplined qInit acts = true →
      getW (run qInit acts).workers i = some wi →
      getW (run qInit acts).workers j = some wj →
      wi.phase ≠ WPhase.stopped → wj.phase ≠ WPhase.stopped → i = j) := by
  constructor
  · intro s pf hr
    simp only [step]
    unfold doStart
    rw [if_pos hr]
  · intro acts i j wi wj hd hgi hgj hai haj
    have hD := dinv_run qInit acts dinv_qInit hd
    have hi := active_last _ i wi hD.2.1 hgi hai
    have hj := active_last _ j wj hD.2.1 hgj haj
    omega

theorem C5_start_idempotent_witness :
    step (run qInit [Act.startWorker 0]) (Act.startWorker 1) =
      run qInit [Act.startWorker 0] ∧ (0 : Nat) = 0 :=
  ⟨(C5_start_idempotent_single_worker).1 _ 1 (by decide),
   (C5_start_idempotent_single_worker).2 [Act.startWorker 0] 0 0
     ⟨0, WPhase.waitingGet, false⟩ ⟨0, WPhase.waitingGet, false⟩
     (by decide) (by decide) (by decide) (by decide) (by decide)⟩

/-- Schedule refuting C7, first half: start_worker slips in while stop()
is suspended in await self.worker_task, so a live worker survives the
stop() return. -/
def c7t1 : List Act :=
  [Act.startWorker 0, Act.stopBegin, Act.deliverCancel 0, Act.startWorker 0,
   Act.stopEnd]

/-- Continuation with no start_worker call. -/
def c7t2 : List Act := [Act.addFF ⟨0, Outcome.ok 3⟩, Act.workerGet 1]

/-- C7 counterexample: after stop() has returned (c7t1) and with no
start_worker call afterwards (c7t2 contains none), a further item is still
dequeued — the dequeue history grows. -/
theorem C7_dequeue_after_stop_returned :
    (run qInit c7t1).stopReturned = true ∧ hasStart c7t2 = false ∧
    ¬ ((run qInit (c7t1 ++ c7t2)).started = (run qInit c7t1).started) := by
  decide

/-- C7 amended: in a disciplined run (start_worker never invoked while a
stop() is in flight), once stop() has returned is_running is false and, for
any continuation containing no start_worker call, nothing more is ever
dequeued even if new items are appended, and the backlog is preserved —
the old backlog stays as a prefix, items are neither removed nor failed. -/
theorem C7_stop_freezes_queue (t1 t2 : List Act)
    (hd : disciplined qInit (t1 ++ t2) = true)
    (hret : (run qInit t1).stopReturned = true)
    (hns : hasStart t2 = false) :
    (run qInit t1).is_running = false ∧
    (run qInit (t1 ++ t2)).started = (run qInit t1).started ∧
    (run qInit t1).backlog <+: (run qInit (t1 ++ t2)).backlog := by
  have hd1 : disciplined qInit t1 = true := by
    rw [disciplined_append] at hd
    exact (Bool.and_eq_true _ _).mp hd |>.1
  have hD := dinv_run qInit t1 dinv_qInit hd1
  have h5 := hD.2.2.2.2.1 hret
  have hfr := frozen_run t2 (run qInit t1) h5.2 hns
  rw [run_append]
  exact ⟨h5.1, hfr.2.1, hfr.2.2⟩

theorem C7_stop_freezes_queue_witness :
    (run qInit [Act.startWorker 0, Act.stopBegin, Act.deliverCancel 0,
      Act.stopEnd]).is_running = false ∧
    (run qInit ([Act.startWorker 0, Act.stopBegin, Act.deliverCancel 0,
      Act.stopEnd] ++ [Act.addFF ⟨2, Outcome.ok 8⟩, Act.workerGet 0])).started =
      (run qInit [Act.startWorker 0, Act.stopBegin, Act.deliverCancel 0,
        Act.stopEnd]).started ∧
    (run qInit [Act.startWorker 0, Act.stopBegin, Act.deliverCancel 0,
      Act.stopEnd]).backlog <+:
      (run qInit ([Act.startWorker 0, Act.stopBegin, Act.deliverCancel 0,
        Act.stopEnd] ++ [Act.addFF ⟨2, Outcome.ok 8⟩, Act.workerGet 0])).backlog :=
  C7_stop_freezes_queue
    [Act.startWorker 0, Act.stopBegin, Act.deliverCancel 0, Act.stopEnd]
    [Act.addFF ⟨2, Outcome.ok 8⟩, Act.workerGet 0]
    (by decide) (by decide) (by decide)


/-!
Concrete trace computations for the error-isolation and result-delivery
claims.
-/

/-- Schedule for C2: a wait-for-completion item that raises error e after
n suspension points, then a fire-and-forget item, run to completion. -/
def errTrace (n e : Nat) (fn2 : ItemFn) : List Act :=
  [Act.startWorker 0, Act.addWait ⟨n, Outcome.err e⟩, Act.addFF fn2,
    Act.workerGet 0] ++
    List.replicate n (Act.workerStep 0) ++ [Act.workerFinish 0, Act.workerGet 0] ++
    List.replicate fn2.susp (Act.workerStep 0) ++ [Act.workerFinish 0]

/-- State of the C2 schedule after the two enqueues and the first dequeue. -/
def c2s4 (n e : Nat) (fn2 : ItemFn) : QState :=
  { backlog := [QItem.bare fn2]
    workers := [⟨0, WPhase.running ⟨⟨n, Outcome.err e⟩, some 0, n⟩, false⟩]
    worker_task := some 0
    is_running := true
    stopWaiting := none
    stopReturned := false
    futures := [(0, none)]
    nextFid := 1
    lastReturn := some 2
    enqueued := [⟨n, Outcome.err e⟩, fn2]
    started := [⟨n, Outcome.err e⟩]
    executed := []
    processed := [] }

/-- State of the C2 schedule once the failing item has passed all its
suspension points. -/
def c2s5 (n e : Nat) (fn2 : ItemFn) : QState :=
  { c2s4 n e fn2 with
    workers := [⟨0, WPhase.running ⟨⟨n, Outcome.err e⟩, some 0, 0⟩, false⟩] }

/-- State of the C2 schedule after the failing item finished (exception
delivered to its future) and the second item was dequeued. -/
def c2s6 (n e : Nat) (fn2 : ItemFn) : QState :=
  { backlog := []
    workers := [⟨0, WPhase.running ⟨fn2, none, fn2.susp⟩, false⟩]
    worker_task := some 0
    is_running := true
    stopWaiting := none
    stopReturned := false
    futures := [(0, some (FutVal.exc e))]
    nextFid := 1
    lastReturn := some 2
    enqueued := [⟨n, Outcome.err e⟩, fn2]
    started := [⟨n, Outcome.err e⟩, fn2]
    executed := [⟨n, Outcome.err e⟩]
    processed := [⟨n, Outcome.err e⟩] }

/-- State of the C2 schedule once the second item has passed all its
suspension points. -/
def c2s7 (n e : Nat) (fn2 : ItemFn) : QState :=
  { c2s6 n e fn2 with
    workers := [⟨0, WPhase.running ⟨fn2, none, 0⟩, false⟩] }

/-- Final state of the C2 schedule. -/
def c2Final (n e : Nat) (fn2 : ItemFn) : QState :=
  { c2s6 n e fn2 with
    workers := [⟨0, WPhase.waitingGet, false⟩]
    executed := [⟨n, Outcome.err e⟩, fn2]
    processed := [⟨n, Outcome.err e⟩, fn2] }

theorem errTrace_run (n e : Nat) (fn2 : ItemFn) :
    run qInit (errTrace n e fn2) = c2Final n e fn2 := by
  unfold errTrace
  rw [run_append, run_append, run_append, run_append]
  have h4 : run qInit [Act.startWorker 0, Act.addWait ⟨n, Outcome.err e⟩,
      Act.addFF fn2, Act.workerGet 0] = c2s4 n e fn2 := rfl
  rw [h4]
  have h5 : run (c2s4 n e fn2) (List.replicate n (Act.workerStep 0)) =
      c2s5 n e fn2 := by
    rw [run_workerStep_fill 0 n (c2s4 n e fn2)
      ⟨0, WPhase.running ⟨⟨n, Outcome.err e⟩, some 0, n⟩, false⟩
      ⟨n, Outcome.err e⟩ (some 0) rfl rfl]
    rfl
  rw [h5]
  have h6 : run (c2s5 n e fn2) [Act.workerFinish 0, Act.workerGet 0] =
      c2s6 n e fn2 := rfl
  rw [h6]
  have h7 : run (c2s6 n e fn2) (List.replicate fn2.susp (Act.workerStep 0)) =
      c2s7 n e fn2 := by
    rw [run_workerStep_fill 0 fn2.susp (c2s6 n e fn2)
      ⟨0, WPhase.running ⟨fn2, none, fn2.susp⟩, false⟩ fn2 none rfl rfl]
    rfl
  rw [h7]
  rfl

/-- C2: a wait-for-completion item that raises error e (after any number
of suspension points) has its future resolved by set_exception to exactly
that error; the worker loop survives (it is back in await queue.get()),
and the next enqueued item of the same partition is still dequeued and
executed to completion. -/
theorem C2_error_resolves_future_worker_continues (n e : Nat) (fn2 : ItemFn) :
    getFut (run qInit (errTrace n e fn2)).futures 0 =
      some (some (FutVal.exc e)) ∧
    (run qInit (errTrace n e fn2)).executed = [⟨n, Outcome.err e⟩, fn2] ∧
    getW (run qInit (errTrace n e fn2)).workers 0 =
      some ⟨0, WPhase.waitingGet, false⟩ := by
  rw [errTrace_run]
  exact ⟨rfl, rfl, rfl⟩

/-- Schedule for C4: one wait-for-completion item returning v after n
suspension points, run to completion. -/
def okTrace (n v : Nat) : List Act :=
  [Act.startWorker 0, Act.addWait ⟨n, Outcome.ok v⟩, Act.workerGet 0] ++
    List.replicate n (Act.workerStep 0) ++ [Act.workerFinish 0]

/-- State of the C4 schedule after enqueue and dequeue. -/
def c4s3 (n v : Nat) : QState :=
  { backlog := []
    workers := [⟨0, WPhase.running ⟨⟨n, Outcome.ok v⟩, some 0, n⟩, false⟩]
    worker_task := some 0
    is_running := true
    stopWaiting := none
    stopReturned := false
    futures := [(0, none)]
    nextFid := 1
    lastReturn := none
    enqueued := [⟨n, Outcome.ok v⟩]
    started := [⟨n, Outcome.ok v⟩]
    executed := []
    processed := [] }

/-- Final state of the C4 schedule. -/
def c4Final (n v : Nat) : QState :=
  { c4s3 n v with
    workers := [⟨0, WPhase.waitingGet, false⟩]
    futures := [(0, some (FutVal.res (some v)))]
    executed := [⟨n, Outcome.ok v⟩]
    processed := [⟨n, Outcome.ok v⟩] }

theorem okTrace_run (n v : Nat) :
    run qInit (okTrace n v) = c4Final n v := by
  unfold okTrace
  rw [run_append, run_append]
  have h3 : run qInit [Act.startWorker 0, Act.addWait ⟨n, Outcome.ok v⟩,
      Act.workerGet 0] = c4s3 n v := rfl
  rw [h3]
  have h4 : run (c4s3 n v) (List.replicate n (Act.workerStep 0)) =
      { c4s3 n v with
        workers := [⟨0, WPhase.running ⟨⟨n, Outcome.ok v⟩, some 0, 0⟩, false⟩] } := by
    rw [run_workerStep_fill 0 n (c4s3 n v)
      ⟨0, WPhase.running ⟨⟨n, Outcome.ok v⟩, some 0, n⟩, false⟩
      ⟨n, Outcome.ok v⟩ (some 0) rfl rfl]
    rfl
  rw [h4]
  rfl

/-- C4: a wait-for-completion item that completes normally with value v
has its future resolved by set_result to exactly v, so the caller
suspended in await future receives v; in particular an item returning the
literal 42 yields a future resolving to 42. -/
theorem C4_future_resolves_to_result (n v : Nat) :
    (getFut (run qInit (okTrace n v)).futures 0 =
      some (some (FutVal.res (some v))) ∧
    (run qInit (okTrace n v)).executed = [⟨n, Outcome.ok v⟩]) ∧
    getFut (run qInit (okTrace 1 42)).futures 0 =
      some (some (FutVal.res (some 42))) := by
  refine ⟨?_, ?_⟩
  · rw [okTrace_run]
    exact ⟨rfl, rfl⟩
  · rw [okTrace_run]
    rfl

/-- C6: the registry is idempotent per key.  A first call with an absent
key assigns the next creation index, registers it, and stores a fresh,
not-yet-started queue built by EpisodeQueue.__init__; a call with a
present key returns the existing entry and changes nothing; a repeated
call returns exactly what the first returned; over any call sequence keys
stay unique, exactly one queue exists per registered key, every called key
is registered, and distinct keys map to distinct queue instances. -/
theorem C6_get_or_create_idempotent :
    (∀ (r : RegState) (g : String), findQ r.entries g = none →
      (get_episode_queue r g).1 = r.queues.length ∧
      (get_episode_queue r g).2.entries = r.entries ++ [(g, r.queues.length)] ∧
      (get_episode_queue r g).2.queues = r.queues ++ [(g, qInit)] ∧
      qInit.is_running = false ∧ qInit.worker_task = none ∧
      qInit.backlog = []) ∧
    (∀ (r : RegState) (g : String) (i : Nat), findQ r.entries g = some i →
      get_episode_queue r g = (i, r)) ∧
    (∀ (r : RegState) (g : String),
      get_episode_queue (get_episode_queue r g).2 g = get_episode_queue r g) ∧
    (∀ (gs : List String) (g1 g2 : String) (i j : Nat),
      findQ (runReg regInit gs).entries g1 = some i →
      findQ (runReg regInit gs).entries g2 = some j → g1 ≠ g2 → i ≠ j) ∧
    (∀ gs : List String,
      (runReg regInit gs).queues.length = (runReg regInit gs).entries.length ∧
      ((runReg regInit gs).entries.map Prod.fst).Nodup ∧
      (∀ g, g ∈ (runReg regInit gs).entries.map Prod.fst ↔ g ∈ gs)) := by
  refine ⟨?_, ?_, ?_, ?_, ?_⟩
  · intro r g h
    unfold get_episode_queue
    rw [h]
    exact ⟨rfl, rfl, rfl, rfl, rfl, rfl⟩
  · intro r g i h
    unfold get_episode_queue
    rw [h]
  · intro r g
    cases hf : findQ r.entries g with
    | some i =>
      have h1 : get_episode_queue r g = (i, r) := by
        unfold get_episode_queue
        rw [hf]
      rw [h1]
      exact h1
    | none =>
      have h1 : get_episode_queue r g =
          (r.queues.length,
           { entries := r.entries ++ [(g, r.queues.length)]
             queues := r.queues ++ [(g, qInit)] }) := by
        unfold get_episode_queue
        rw [hf]
      rw [h1]
      unfold get_episode_queue
      rw [findQ_append_none r.entries g r.queues.length hf]
  · intro gs g1 g2 i j h1 h2 hne
    have hinv := regInv_runReg gs regInit regInv_regInit
    have hnd : ((runReg regInit gs).entries.map Prod.snd).Nodup := by
      rw [hinv.1]
      exact List.nodup_range _
    exact findQ_inj _ hnd g1 g2 i j h1 h2 hne
  · intro gs
    have hinv := regInv_runReg gs regInit regInv_regInit
    refine ⟨hinv.2.1, hinv.2.2, ?_⟩
    intro g
    rw [runReg_keys gs regInit g]
    simp [regInit]

theorem C6_get_or_create_witness :
    (get_episode_queue regInit "a").1 = 0 ∧
    get_episode_queue (get_episode_queue regInit "a").2 "a" =
      get_episode_queue regInit "a" ∧
    (0 : Nat) ≠ 1 := by
  refine ⟨(C6_get_or_create_idempotent.1 regInit "a" rfl).1,
    C6_get_or_create_idempotent.2.2.1 regInit "a",
    C6_get_or_create_idempotent.2.2.2.1 ["a", "b"] "a" "b" 0 1 rfl rfl
      (by decide)⟩

/-- C8 counterexample: the reference time is not captured at construction.
A work item constructed at clock 0 and executed at clock 1 passes
reference_time = 1 (the clock read inside the closure body at execution),
not the construction-time clock 0. -/
theorem C8_reference_time_at_execution :
    ((add_episode_item 0 "g" "nm" "bd" 0 "d" none false) 1).reference_time = 1 ∧
    ((add_episode_item 0 "g" "nm" "bd" 0 "d" none false) 1).reference_time ≠ 0 :=
  ⟨rfl, by decide⟩

/-- C8 amended: the work item captures name, body, source, description,
group, uuid and the custom-entities flag at construction and is
independent of the construction-time clock, but its reference time is the
clock read at the moment the worker executes it, not at construction. -/
theorem C8_item_captures_args_not_time (ct1 ct2 : Nat)
    (g nm bd : String) (src : Nat) (d : String) (u : Option String)
    (uce : Bool) (t : Nat) :
    add_episode_item ct1 g nm bd src d u uce t =
      add_episode_item ct2 g nm bd src d u uce t ∧
    (add_episode_item ct1 g nm bd src d u uce t).reference_time = t ∧
    (add_episode_item ct1 g nm bd src d u uce t).name = nm ∧
    (add_episode_item ct1 g nm bd src d u uce t).episode_body = bd ∧
    (add_episode_item ct1 g nm bd src d u uce t).group_id = g ∧
    (add_episode_item ct1 g nm bd src d u uce t).source = src ∧
    (add_episode_item ct1 g nm bd src d u uce t).source_description = d ∧
    (add_episode_item ct1 g nm bd src d u uce t).uuid = u ∧
    (add_episode_item ct1 g nm bd src d u uce t).custom_entities = uce :=
  ⟨rfl, rfl, rfl, rfl, rfl, rfl, rfl, rfl, rfl⟩

/-- Schedule refuting the second-position part of C9: X is enqueued into a
fresh partition, the worker dequeues it, then Y is enqueued. -/
def c9Trace : List Act :=
  [Act.startWorker 0, Act.addFF ⟨0, Outcome.ok 0⟩, Act.workerGet 0,
   Act.addFF ⟨0, Outcome.ok 1⟩]

/-- C9 counterexample: enqueuing the second fire-and-forget item does not
return 2 or greater — when the first item has already been dequeued the
returned backlog length is 1. -/
theorem C9_second_position_can_be_one :
    (run qInit c9Trace).lastReturn = some 1 ∧ ¬ (2 : Nat) ≤ 1 := by decide

/-- C9 amended: a fire-and-forget submit appends the item at the tail and
returns the backlog length right after the put; the first item into a new
partition returns 1, and an immediately following second item returns 2 if
the first has not yet been dequeued and 1 (smaller, not greater) if it
has. -/
theorem C9_position_is_backlog_length (x y : ItemFn) :
    (∀ (s : QState) (fn : ItemFn),
      (step s (Act.addFF fn)).backlog = s.backlog ++ [QItem.bare fn] ∧
      (step s (Act.addFF fn)).lastReturn =
        some ((step s (Act.addFF fn)).backlog.length)) ∧
    (run qInit [Act.startWorker 0, Act.addFF x]).lastReturn = some 1 ∧
    (run qInit [Act.startWorker 0, Act.addFF x, Act.addFF y]).lastReturn =
      some 2 ∧
    (run qInit [Act.startWorker 0, Act.addFF x, Act.workerGet 0,
      Act.addFF y]).lastReturn = some 1 := by
  refine ⟨?_, rfl, rfl, rfl⟩
  intro s fn
  refine ⟨rfl, ?_⟩
  simp [step, doAddFF, List.length_append]

/-- C10: the queue's observable behaviour does not depend on the
process_fn argument handed to start_worker, because each work item carries
its own closure and the worker body never invokes process_fn.  Relabelling
the process_fn of every start_worker call in a schedule arbitrarily leaves
the entire observable state — backlog, futures, flags, worker phases and
all ghost histories — unchanged. -/
theorem C10_process_fn_irrelevant (f : Nat → Nat) (acts : List Act) :
    obsState (run qInit (acts.map (Act.relabelPf f))) =
      obsState (run qInit acts) := by
  have h0 : mapPfState f qInit = qInit := rfl
  rw [← h0, run_mapPf]
  unfold obsState mapPfState
  dsimp only
  rw [List.map_map]
  have hfun : ((fun w : Worker => { w with process_fn := (0 : Nat) }) ∘
      (fun w : Worker => { w with process_fn := f w.process_fn })) =
      (fun w : Worker => { w with process_fn := (0 : Nat) }) :=
    funext fun w => rfl
  rw [hfun]
  rfl

end GraphitiQueue
